import Mathlib

/-
  Verification development for the tup build system's CLI front end
  (main.c) and the database/graph core it drives.

  The source is shallowly embedded: the node/link store is a record of
  lists, the graph command's construction loop is a fuel-indexed worklist,
  and the exit-code plumbing of main() is a pure function.  Definitions
  whose C implementation is not part of the provided sources (only their
  declarations in db.h and their call sites) are marked
  "Modelled from the spec:" in their doc comment and follow the
  specification's wording.
-/

set_option maxHeartbeats 1000000

namespace Tup

/-- Node types, from enum TUP_NODE_TYPE (spec section 3.1). -/
inductive TupNodeType where
  | file
  | dir
  | cmd
  | generated
  | generatedDir
  | ghost
  | var
  | group
  deriving DecidableEq, Repr

/-- One row of the node table: id, parent directory id, name, type. -/
structure TupEntry where
  id : Nat
  dt : Nat
  name : String
  type : TupNodeType
  deriving DecidableEq, Repr

/-- One row of the link table.  A link carries a style bitmask in the C
    source (TUP_LINK_NORMAL | TUP_LINK_STICKY | group); here the mask is
    three booleans. -/
structure TupLink where
  src : Nat
  dst : Nat
  normal : Bool
  sticky : Bool
  grp : Bool
  deriving DecidableEq, Repr

/-- The persistent store at transaction start: node table, link table,
    the create and modify flag tables, and the env_dt sentinel id. -/
structure Store where
  entries : List TupEntry
  links : List TupLink
  createList : List Nat
  modifyList : List Nat
  envDt : Nat
  deriving Repr

/-- Store well-formedness used throughout: node ids are unique
    (spec section 3.1, ids are allocated monotonically and never reused). -/
def Store.WF (st : Store) : Prop :=
  (st.entries.map TupEntry.id).Nodup

instance (st : Store) : Decidable st.WF := by
  unfold Store.WF
  infer_instance

/-- DOT_DT, the root directory id. -/
def DOT_DT : Nat := 1

/-- TUP_CONFIG, the config file name (db.h). -/
def TUP_CONFIG : String := "tup.config"

/-- Id-keyed lookup in the node table (the entry cache's get_or_load). -/
def lookupEntry (st : Store) (i : Nat) : Option TupEntry :=
  st.entries.find? (fun t => t.id == i)

theorem lookupEntry_mem {st : Store} {i : Nat} {t : TupEntry}
    (h : lookupEntry st i = some t) : t ∈ st.entries ∧ t.id = i := by
  refine ⟨List.mem_of_find?_eq_some h, ?_⟩
  have := List.find?_some h
  simpa using this

theorem lookupEntry_eq_some {st : Store} (hw : st.WF) {i : Nat} {t : TupEntry} :
    lookupEntry st i = some t ↔ t ∈ st.entries ∧ t.id = i := by
  constructor
  · exact lookupEntry_mem
  · rintro ⟨hmem, hid⟩
    match hfind : lookupEntry st i with
    | none =>
        exfalso
        have := List.find?_eq_none.mp hfind t hmem
        simp [hid] at this
    | some u =>
        have hu := lookupEntry_mem hfind
        have : u = t := by
          have hinj := List.inj_on_of_nodup_map hw
          exact hinj hu.1 hmem (by rw [hu.2, hid])
        exact congrArg some this

/-! ### Exit codes of main() (claim C2)

    From src/unnamed/part_000: the dispatch at lines 300-307 maps a
    normal_exists/sticky_exists result of 1 to 11; lines 350-355 force the
    code to 1 when tup_cleanup fails, and convert any negative result
    to 1. -/

/-- Modelled from the spec: `tup_db_link_exists(a, b, style)` (declared in
    db.h, implementation not in the provided sources) reports whether a
    link `(a, b)` of the queried style is present; spec section 4.D,
    "link_exists(a, b, style) → bool".  `normalStyle` selects
    TUP_LINK_NORMAL, otherwise TUP_LINK_STICKY is queried. -/
def tup_db_link_exists (st : Store) (a b : Nat) (normalStyle : Bool) : Bool :=
  st.links.any (fun l => l.src == a && l.dst == b &&
    (if normalStyle then l.normal else l.sticky))

/-- The return value of link_exists() (src lines 941-999): on success the
    function returns the `exists` flag from tup_db_link_exists (1 when the
    link is present, 0 when absent); `ok` is false when any of the node or
    directory lookups failed, in which case -1 is returned. -/
def link_exists_rc (st : Store) (ok : Bool) (a b : Nat) (normalStyle : Bool) : Int :=
  if ok then (if tup_db_link_exists st a b normalStyle then 1 else 0) else -1

/-- Exit-code post-processing of main() (src lines 300-307 and 339-355):
    for the link-predicate commands an rc of 1 becomes 11; a failing
    tup_cleanup forces rc to 1; finally a negative rc is converted to
    exit code 1. -/
def mainExitCode (cmdIsLinkPredicate : Bool) (rc0 : Int) (cleanupOk : Bool) : Int :=
  let rc1 := if cmdIsLinkPredicate && rc0 == 1 then 11 else rc0
  let rc2 := if cleanupOk then rc1 else 1
  if rc2 < 0 then 1 else rc2

/-! ### The scan command (claim C8)

    From src/unnamed/part_000 lines 267-276: scan asks the monitor for its
    pid; a positive pid aborts with an error naming that pid and rc 1,
    otherwise tup_scan() runs. -/

/-- What the scan branch of main() does, as a function of the outcome of
    monitor_get_pid: `none` models monitor_get_pid returning an error
    (main returns -1 immediately), `some pid` models success with the
    reported pid. -/
inductive ScanAction where
  | errNoPid
  | monitorRunning (pid : Int)
  | runScan
  deriving DecidableEq, Repr

/-- The scan branch of main() (src lines 267-276). -/
def scanCommand (pidResult : Option Int) : ScanAction :=
  match pidResult with
  | none => ScanAction.errNoPid
  | some pid => if pid > 0 then ScanAction.monitorRunning pid else ScanAction.runScan

/-- The rc the scan branch hands to the tail of main(): 1 when the monitor
    was running, the result of tup_scan() when the scan ran, and -1
    (returned directly) when monitor_get_pid failed. -/
def scanBranchRc (a : ScanAction) (tupScanRc : Int) : Int :=
  match a with
  | ScanAction.errNoPid => -1
  | ScanAction.monitorRunning _ => 1
  | ScanAction.runScan => tupScanRc

/-- Whether tup_scan() was invoked. -/
def scanPerformed (a : ScanAction) : Bool :=
  match a with
  | ScanAction.runScan => true
  | _ => false

/-! ### The variant command (claim C7)

    From src/unnamed/part_000 lines 790-869 (create_variant): the variant
    directory is "build-" followed by the config file's base name cut at
    its FIRST dot (strchr), the tup.config symlink is created inside it,
    and its target is "../" plus the sub-directory-qualified config
    path. -/

/-- The base filename of the config path: the portion after the last
    slash (`strrchr(config_path, '/')` followed by `+ 1`); the whole path
    when it has no slash. -/
def variantFilename (config_path : String) : String :=
  String.mk ((config_path.toList.reverse.takeWhile (fun c => c ≠ '/')).reverse)

/-- The variant directory name computed by create_variant:
    "build-%.*s" with the length cut at the first dot of the filename
    (`strchr(filename, '.')`), or "build-%s" with the whole filename when
    it has no dot.  `takeWhile` up to the first dot captures both
    branches at once. -/
def variantDirName (config_path : String) : String :=
  "build-" ++ String.mk ((variantFilename config_path).toList.takeWhile (fun c => c ≠ '.'))

/-- What claim C7 says the directory name is built from: the base name
    with its extension stripped, i.e. cut at the LAST dot (written from
    the claim's words, for comparison with variantDirName). -/
def stripExtension (s : String) : String :=
  if s.toList.contains '.' then
    String.mk (((s.toList.reverse.dropWhile (fun c => c ≠ '.')).drop 1).reverse)
  else s

/-- The spec-worded variant directory name for claim C7. -/
def variantDirNameClaim (config_path : String) : String :=
  "build-" ++ stripExtension (variantFilename config_path)

/-- The three path strings create_variant computes on its success path:
    the variant directory, the symlink location `dirname/tup.config`
    (linkdest) and the symlink target (linkpath), which is
    "../<sub_dir>/<config_path>" when the invocation happened in a
    sub-directory of the project and "../<config_path>" at the root
    (src lines 835-849). -/
structure VariantResult where
  dirname : String
  linkdest : String
  linkpath : String
  deriving DecidableEq, Repr

/-- create_variant's computation of the variant directory name and the
    tup.config symlink source and target (src lines 790-869), for an
    invocation from sub-directory `sub_dir` (none at the project root). -/
def create_variant (sub_dir : Option String) (config_path : String) : VariantResult :=
  let dirname := variantDirName config_path
  let linkpath :=
    match sub_dir with
    | some sd => "../" ++ sd ++ "/" ++ config_path
    | none => "../" ++ config_path
  { dirname := dirname
    linkdest := dirname ++ "/" ++ TUP_CONFIG
    linkpath := linkpath }

/-- The path the symlink resolves to, relative to the project root: the
    link lives in `<root>/<dirname>/`, so its "../" target resolves to
    `<sub_dir>/<config_path>` (the config file as the user named it,
    relative to the invocation directory). -/
def variantLinkResolved (sub_dir : Option String) (config_path : String) : String :=
  match sub_dir with
  | some sd => sd ++ "/" ++ config_path
  | none => config_path

/-! ### Canonical sorting

    Insertion sort over a boolean order, used to model the id-ordered
    enumerations of the store (RB-tree iteration, indexed SQL queries)
    and to canonicalise graph output.  Structural recursion keeps these
    kernel-reducible for concrete evaluation. -/

/-- Insert into a sorted list. -/
def insertSortedBy {α : Type} (le : α → α → Bool) (i : α) : List α → List α
  | [] => [i]
  | a :: rest => if le i a then i :: a :: rest else a :: insertSortedBy le i rest

/-- Insertion sort by a boolean order. -/
def sortListBy {α : Type} (le : α → α → Bool) : List α → List α
  | [] => []
  | a :: rest => insertSortedBy le a (sortListBy le rest)

theorem insertSortedBy_perm {α : Type} (le : α → α → Bool) (i : α) (l : List α) :
    (insertSortedBy le i l).Perm (i :: l) := by
  induction l with
  | nil => exact List.Perm.refl _
  | cons a rest ih =>
      rw [insertSortedBy]
      by_cases h : le i a = true
      · rw [if_pos h]
      · rw [if_neg h]
        exact (ih.cons a).trans (List.Perm.swap i a rest)

theorem sortListBy_perm {α : Type} (le : α → α → Bool) (l : List α) :
    (sortListBy le l).Perm l := by
  induction l with
  | nil => exact List.Perm.refl _
  | cons a rest ih =>
      rw [sortListBy]
      exact (insertSortedBy_perm le a (sortListBy le rest)).trans (ih.cons a)

theorem mem_insertSortedBy {α : Type} {le : α → α → Bool} {i x : α} {l : List α} :
    x ∈ insertSortedBy le i l ↔ x = i ∨ x ∈ l :=
  by simpa using (insertSortedBy_perm le i l).mem_iff

theorem mem_sortListBy {α : Type} {le : α → α → Bool} {x : α} {l : List α} :
    x ∈ sortListBy le l ↔ x ∈ l :=
  (sortListBy_perm le l).mem_iff

theorem pairwise_insertSortedBy {α : Type} {le : α → α → Bool}
    (htot : ∀ a b, le a b = true ∨ le b a = true)
    (htr : ∀ a b c, le a b = true → le b c = true → le a c = true) {i : α} {l : List α}
    (hs : l.Pairwise (fun a b => le a b = true)) :
    (insertSortedBy le i l).Pairwise (fun a b => le a b = true) := by
  induction l with
  | nil => simp [insertSortedBy]
  | cons a rest ih =>
      rcases List.pairwise_cons.mp hs with ⟨ha, hrest⟩
      rw [insertSortedBy]
      by_cases h : le i a = true
      · rw [if_pos h]
        refine List.pairwise_cons.mpr ⟨?_, hs⟩
        intro b hb
        rcases List.mem_cons.mp hb with hb | hb
        · rw [hb]
          exact h
        · exact htr i a b h (ha b hb)
      · rw [if_neg h]
        refine List.pairwise_cons.mpr ⟨?_, ih hrest⟩
        intro b hb
        rcases mem_insertSortedBy.mp hb with hb | hb
        · subst hb
          rcases htot a b with hab | hba
          · exact hab
          · exact absurd hba h
        · exact ha b hb

theorem pairwise_sortListBy {α : Type} {le : α → α → Bool}
    (htot : ∀ a b, le a b = true ∨ le b a = true)
    (htr : ∀ a b c, le a b = true → le b c = true → le a c = true) (l : List α) :
    (sortListBy le l).Pairwise (fun a b => le a b = true) := by
  induction l with
  | nil => simp [sortListBy]
  | cons a rest ih => exact pairwise_insertSortedBy htot htr ih

theorem sortListBy_eq_of_mem_iff {α : Type} {le : α → α → Bool}
    (htot : ∀ a b, le a b = true ∨ le b a = true)
    (htr : ∀ a b c, le a b = true → le b c = true → le a c = true)
    (hanti : ∀ a b, le a b = true → le b a = true → a = b)
    {l₁ l₂ : List α} (h₁ : l₁.Nodup) (h₂ : l₂.Nodup)
    (hmem : ∀ x, x ∈ l₁ ↔ x ∈ l₂) :
    sortListBy le l₁ = sortListBy le l₂ := by
  haveI : IsAntisymm α (fun a b => le a b = true) := ⟨hanti⟩
  have hperm : l₁.Perm l₂ := by
    rw [List.perm_ext_iff_of_nodup h₁ h₂]
    exact hmem
  have hperm' : (sortListBy le l₁).Perm (sortListBy le l₂) :=
    ((sortListBy_perm le l₁).trans hperm).trans (sortListBy_perm le l₂).symm
  exact List.eq_of_perm_of_sorted hperm'
    (pairwise_sortListBy htot htr l₁) (pairwise_sortListBy htot htr l₂)

/-- Boolean order on Nat. -/
def natLeB (a b : Nat) : Bool := decide (a ≤ b)

/-- Boolean lexicographic order on Nat pairs (for edges). -/
def pairLeB (x y : Nat × Nat) : Bool :=
  decide (x.1 < y.1) || (decide (x.1 = y.1) && decide (x.2 ≤ y.2))

theorem natLeB_total : ∀ a b, natLeB a b = true ∨ natLeB b a = true := by
  intro a b
  simp only [natLeB, decide_eq_true_eq]
  omega

theorem natLeB_antisymm : ∀ a b, natLeB a b = true → natLeB b a = true → a = b := by
  intro a b h₁ h₂
  simp only [natLeB, decide_eq_true_eq] at h₁ h₂
  omega

theorem natLeB_trans : ∀ a b c, natLeB a b = true → natLeB b c = true →
    natLeB a c = true := by
  intro a b c h₁ h₂
  simp only [natLeB, decide_eq_true_eq] at h₁ h₂ ⊢
  omega

theorem pairLeB_total : ∀ x y, pairLeB x y = true ∨ pairLeB y x = true := by
  intro x y
  simp only [pairLeB, Bool.or_eq_true, Bool.and_eq_true, decide_eq_true_eq]
  omega

theorem pairLeB_trans : ∀ x y z, pairLeB x y = true → pairLeB y z = true →
    pairLeB x z = true := by
  intro x y z h₁ h₂
  simp only [pairLeB, Bool.or_eq_true, Bool.and_eq_true, decide_eq_true_eq] at h₁ h₂ ⊢
  omega

theorem pairLeB_antisymm : ∀ x y, pairLeB x y = true → pairLeB y x = true → x = y := by
  intro x y h₁ h₂
  simp only [pairLeB, Bool.or_eq_true, Bool.and_eq_true, decide_eq_true_eq] at h₁ h₂
  have : x.1 = y.1 ∧ x.2 = y.2 := by omega
  exact Prod.ext this.1 this.2

/-- Canonical (ascending, duplicate-free) id list. -/
def canonNat (l : List Nat) : List Nat := sortListBy natLeB l.dedup

/-- Canonical (lexicographically ascending, duplicate-free) edge list. -/
def canonPairs (l : List (Nat × Nat)) : List (Nat × Nat) := sortListBy pairLeB l.dedup

theorem canonNat_eq_of_mem_iff {l₁ l₂ : List Nat}
    (hmem : ∀ x, x ∈ l₁ ↔ x ∈ l₂) : canonNat l₁ = canonNat l₂ :=
  sortListBy_eq_of_mem_iff natLeB_total natLeB_trans natLeB_antisymm
    l₁.nodup_dedup l₂.nodup_dedup (by simpa [List.mem_dedup] using hmem)

theorem canonPairs_eq_of_mem_iff {l₁ l₂ : List (Nat × Nat)}
    (hmem : ∀ x, x ∈ l₁ ↔ x ∈ l₂) : canonPairs l₁ = canonPairs l₂ :=
  sortListBy_eq_of_mem_iff pairLeB_total pairLeB_trans pairLeB_antisymm
    l₁.nodup_dedup l₂.nodup_dedup (by simpa [List.mem_dedup] using hmem)

/-! ### The inputs command (claim C10)

    From src/unnamed/part_000 lines 452-480: for each command id, the
    normal input set is fetched with
    tup_db_get_inputs(cmdid, NULL, &inputs, NULL) and every entry whose
    type is not TUP_NODE_GHOST is printed. -/

/-- Modelled from the spec: the `normal_root` filled by
    `tup_db_get_inputs(cmdid, ...)` (declared in db.h, implementation not
    in the provided sources) holds the sources of the normal links into
    `cmdid` — spec section 4.G step 3, "read_set becomes the set of
    normal edges into cmdid".  The RB-tree enumeration is in ascending
    id order. -/
def tup_db_get_inputs_normal (st : Store) (cmdid : Nat) : List TupEntry :=
  (canonNat ((st.links.filter (fun l => l.dst == cmdid && l.normal)).map
      (fun l => l.src))).filterMap (lookupEntry st)

/-- The entries the inputs command prints for one command id (src lines
    470-475): the normal inputs whose type is not ghost. -/
def inputsPrinted (st : Store) (cmdid : Nat) : List TupEntry :=
  (tup_db_get_inputs_normal st cmdid).filter (fun t => t.type != TupNodeType.ghost)

theorem mem_tup_db_get_inputs_normal {st : Store} (hw : st.WF) {cmdid : Nat}
    {t : TupEntry} :
    t ∈ tup_db_get_inputs_normal st cmdid ↔
      (t ∈ st.entries ∧ ∃ l ∈ st.links, l.dst = cmdid ∧ l.normal = true ∧ l.src = t.id) := by
  unfold tup_db_get_inputs_normal canonNat
  rw [List.mem_filterMap]
  constructor
  · rintro ⟨i, hi, hlook⟩
    rcases lookupEntry_mem hlook with ⟨hmem, hid⟩
    rw [mem_sortListBy, List.mem_dedup, List.mem_map] at hi
    rcases hi with ⟨l, hl, hsrc⟩
    rw [List.mem_filter] at hl
    refine ⟨hmem, l, hl.1, ?_, ?_, ?_⟩
    · have := hl.2
      simp only [Bool.and_eq_true, beq_iff_eq] at this
      exact this.1
    · have := hl.2
      simp only [Bool.and_eq_true, beq_iff_eq] at this
      exact this.2
    · rw [hsrc, hid]
  · rintro ⟨hmem, l, hl, hdst, hnorm, hsrc⟩
    refine ⟨t.id, ?_, (lookupEntry_eq_some hw).mpr ⟨hmem, rfl⟩⟩
    rw [mem_sortListBy, List.mem_dedup, List.mem_map]
    exact ⟨l, List.mem_filter.mpr ⟨hl, by simp [hdst, hnorm]⟩, hsrc⟩

/-- C10: the inputs command prints exactly the command's normal-input
    entries whose node type is not ghost; an input of type ghost is never
    printed even though it is present in the stored normal input set. -/
theorem inputs_prints_nonghost_normal_inputs (st : Store) (hw : st.WF) (cmdid : Nat) :
    (∀ t, t ∈ inputsPrinted st cmdid ↔
      (t ∈ st.entries ∧ t.type ≠ TupNodeType.ghost ∧
        ∃ l ∈ st.links, l.dst = cmdid ∧ l.normal = true ∧ l.src = t.id)) ∧
    (∀ t, t ∈ tup_db_get_inputs_normal st cmdid → t.type = TupNodeType.ghost →
      t ∉ inputsPrinted st cmdid) := by
  constructor
  · intro t
    unfold inputsPrinted
    rw [List.mem_filter, mem_tup_db_get_inputs_normal hw]
    constructor
    · rintro ⟨⟨hmem, hlink⟩, hty⟩
      refine ⟨hmem, ?_, hlink⟩
      simpa using hty
    · rintro ⟨hmem, hty, hlink⟩
      exact ⟨⟨hmem, hlink⟩, by simpa using hty⟩
  · intro t _ hghost hmem
    unfold inputsPrinted at hmem
    rw [List.mem_filter] at hmem
    have := hmem.2
    simp [hghost] at this

/-- Concrete store for the C10 witness: a command (id 9) with a normal
    file input (id 3) and a normal ghost input (id 4). -/
def c10Store : Store :=
  { entries := [⟨3, 1, "a.c", TupNodeType.file⟩, ⟨4, 1, "gen.h", TupNodeType.ghost⟩,
                ⟨9, 1, "cc", TupNodeType.cmd⟩]
    links := [⟨3, 9, true, false, false⟩, ⟨4, 9, true, true, false⟩]
    createList := []
    modifyList := []
    envDt := 0 }

theorem inputs_prints_nonghost_normal_inputs_witness :
    (⟨3, 1, "a.c", TupNodeType.file⟩ : TupEntry) ∈ inputsPrinted c10Store 9 ∧
    (⟨4, 1, "gen.h", TupNodeType.ghost⟩ : TupEntry) ∈ tup_db_get_inputs_normal c10Store 9 ∧
    (⟨4, 1, "gen.h", TupNodeType.ghost⟩ : TupEntry) ∉ inputsPrinted c10Store 9 := by
  have h := inputs_prints_nonghost_normal_inputs c10Store (by decide) 9
  refine ⟨?_, by decide, ?_⟩
  · exact (h.1 _).mpr (by decide)
  · exact h.2 _ (by decide) rfl

/-! ### Claim C2: exit codes -/

/-- C2: exit code 0 means success; a subcommand returning a negative value
    exits with code 1; the link-predicate commands normal_exists and
    sticky_exists exit with code 11 when the queried link is present
    (and 0 when it is absent), distinguishing presence from generic
    success. -/
theorem exit_code_convention (st : Store) (a b : Nat) (sty : Bool) (rc : Int)
    (pred : Bool) (hneg : rc < 0)
    (hpresent : tup_db_link_exists st a b sty = true) :
    mainExitCode pred 0 true = 0 ∧
    mainExitCode pred rc true = 1 ∧
    mainExitCode true (link_exists_rc st true a b sty) true = 11 := by
  refine ⟨?_, ?_, ?_⟩
  · simp [mainExitCode]
  · have h1 : (rc == 1) = false := by
      simp only [beq_eq_false_iff_ne, ne_eq]
      omega
    simp only [mainExitCode, h1, Bool.and_false, if_false, if_true]
    simp only [Bool.false_eq_true, if_false]
    rw [if_pos hneg]
  · simp [mainExitCode, link_exists_rc, hpresent]

theorem exit_code_convention_witness :
    tup_db_link_exists c10Store 3 9 true = true ∧
    mainExitCode false 0 true = 0 ∧
    mainExitCode false (-3) true = 1 ∧
    mainExitCode true (link_exists_rc c10Store true 3 9 true) true = 11 := by
  have h := exit_code_convention c10Store 3 9 true (-3) false (by decide) (by decide)
  exact ⟨by decide, h.1, h.2.1, h.2.2⟩

/-! ### Claim C8: scan refuses to run while the monitor is up -/

/-- C8: when the monitor is running (positive pid), the scan command does
    not scan, reports the monitor's pid, and the process exits non-zero;
    tup_scan is invoked only when no positive monitor pid was found. -/
theorem scan_blocked_by_monitor (pidResult : Option Int) (pid tupScanRc : Int)
    (cleanupOk : Bool) (hpid : pidResult = some pid) (hpos : pid > 0) :
    scanCommand pidResult = ScanAction.monitorRunning pid ∧
    scanPerformed (scanCommand pidResult) = false ∧
    mainExitCode false (scanBranchRc (scanCommand pidResult) tupScanRc) cleanupOk ≠ 0 ∧
    (∀ r, scanPerformed (scanCommand r) = true →
      ∃ p, r = some p ∧ p ≤ 0) := by
  have hcmd : scanCommand pidResult = ScanAction.monitorRunning pid := by
    rw [hpid]
    simp [scanCommand, hpos]
  refine ⟨hcmd, by rw [hcmd]; rfl, ?_, ?_⟩
  · rw [hcmd]
    cases cleanupOk <;> simp [scanBranchRc, mainExitCode]
  · intro r hr
    match r with
    | none => simp [scanCommand, scanPerformed] at hr
    | some p =>
        by_cases hp : p > 0
        · simp [scanCommand, hp, scanPerformed] at hr
        · exact ⟨p, rfl, by omega⟩

theorem scan_blocked_by_monitor_witness :
    scanCommand (some 42) = ScanAction.monitorRunning 42 ∧
    scanPerformed (scanCommand (some 42)) = false ∧
    mainExitCode false (scanBranchRc (scanCommand (some 42)) 0) true ≠ 0 := by
  have h := scan_blocked_by_monitor (some 42) 42 0 true rfl (by decide)
  exact ⟨h.1, h.2.1, h.2.2.1⟩

/-! ### Claim C7: the variant command -/

/-- Resolution of a "../"-prefixed symlink target, viewed from the project
    root: the link lives one directory below the root, so `../X` denotes
    `X` relative to the root. -/
def resolveDotDot (s : String) : Option String :=
  match s.toList with
  | '.' :: '.' :: '/' :: rest => some (String.mk rest)
  | _ => none

/-- C7 counterexample: for the config file name "a.b.config",
    create_variant cuts at the FIRST dot and names the variant directory
    "build-a", while the claim's "base name with its extension stripped"
    names it "build-a.b"; the two disagree. -/
theorem variant_first_dot_counterexample :
    variantDirName "a.b.config" = "build-a" ∧
    variantDirNameClaim "a.b.config" = "build-a.b" ∧
    variantDirName "a.b.config" ≠ variantDirNameClaim "a.b.config" := by
  refine ⟨by decide, by decide, by decide⟩

/-- C7 (amended): a successful `tup variant foo.config` invocation creates
    the variant directory "build-<name>" where <name> is the config
    file's base name truncated at its FIRST dot (the whole base name if
    it has no dot), containing a tup.config symlink whose target resolves
    (from the project root) to the config file exactly as the user named
    it, relative to the invocation directory. -/
theorem variant_created_paths (sub_dir : Option String) (config_path : String) :
    (create_variant sub_dir config_path).dirname =
      "build-" ++ String.mk ((variantFilename config_path).toList.takeWhile (fun c => c ≠ '.')) ∧
    (create_variant sub_dir config_path).linkdest =
      (create_variant sub_dir config_path).dirname ++ "/" ++ TUP_CONFIG ∧
    resolveDotDot (create_variant sub_dir config_path).linkpath =
      some (variantLinkResolved sub_dir config_path) := by
  refine ⟨rfl, rfl, ?_⟩
  cases sub_dir with
  | none => rfl
  | some sd => rfl

/-! ### Command dispatch of main() (claim C9)

    From src/unnamed/part_000 lines 105-356.  The first argument not
    starting with '-' is the secondary command; the arguments after it
    become the command's argument vector.  With no such argument the
    command defaults to "upd" and the argument vector is left untouched.
    The observable outcome of the dispatch is modelled as an Action. -/

/-- The operation main() hands off to, together with its argument
    vector.  `updater args phase clearAuto` is a call to
    updater(args, phase) (clearAuto set by autoupdate/autoparse); `other`
    covers the remaining subcommands, whose internals are modelled
    separately where a claim needs them. -/
inductive Action where
  | helpGeneral
  | helpCmd (cmd : String)
  | helpUnknown (cmd : String)
  | version
  | varsedCmd (args : List String)
  | subprocError (cmd : String)
  | initCmd (args : List String)
  | generateCmd (args : List String)
  | privileged
  | server
  | stopCmd
  | waitmonCmd
  | updater (args : List String) (phase : Int) (clearAuto : Bool)
  | other (cmd : String) (args : List String)
  deriving DecidableEq, Repr

/-- Whether the argument's first byte is '-' (the C test
    `argv[x][0] != '-'` negated; an empty argument's first byte is NUL,
    which is not '-'). -/
def startsWithDash (a : String) : Bool :=
  match a.toList with
  | c :: _ => c == '-'
  | [] => false

/-- The first argument whose first byte is not '-' (the secondary
    command), together with the arguments after it (src lines 122-126 and
    162-163; flags before the command are consumed by the option scan). -/
def splitCmd : List String → Option (String × List String)
  | [] => none
  | a :: rest => if startsWithDash a then splitCmd rest else some (a, rest)

/-- Whether -h or --help occurs anywhere in the argument list (src lines
    131-134). -/
def helpRequested (args : List String) : Bool :=
  args.any (fun a => a == "-h" || a == "--help")

/-- The commands of the helpers[] table, for `tup <cmd> -h` (src lines
    57-76); "ref" is the altcommand of refactor. -/
def helperNames : List String :=
  ["init", "upd", "refactor", "monitor", "stop", "variant", "dbconfig",
   "options", "graph", "todo", "generate", "varsed", "scan"]

/-- Help output for `tup <cmd> -h` (src lines 146-155): the helper entry
    when the command is listed, otherwise "No help found". -/
def helpAction (c : String) : Action :=
  if helperNames.contains c || c == "ref" then Action.helpCmd c else Action.helpUnknown c

/-- Whether the first element of the command's argument vector is
    --version or -v (src lines 166-172). -/
def headIsVersionFlag : List String → Bool
  | a :: _ => a == "--version" || a == "-v"
  | [] => false

/-- The dispatch chain from "init" onward (src lines 190-337), as an
    association table: the C code is a chain of strcmp over these
    pairwise-distinct keys in this order, so an ordered lookup is
    equivalent.  read/parse/upd/refactor/ref/autoupdate/autoparse all
    call updater with their phase argument. -/
def cmdTable (args : List String) : List (String × Action) :=
  [("init", Action.initCmd args),
   ("version", Action.version),
   ("generate", Action.generateCmd args),
   ("privileged", Action.privileged),
   ("server", Action.server),
   ("stop", Action.stopCmd),
   ("waitmon", Action.waitmonCmd),
   ("monitor", Action.other "monitor" args),
   ("entry", Action.other "entry" args),
   ("type", Action.other "type" args),
   ("tupid", Action.other "tupid" args),
   ("inputs", Action.other "inputs" args),
   ("graph", Action.other "graph" args),
   ("compiledb", Action.other "compiledb" args),
   ("commandline", Action.other "commandline" args),
   ("scan", Action.other "scan" args),
   ("link", Action.other "link" args),
   ("read", Action.updater args 1 false),
   ("parse", Action.updater args 2 false),
   ("upd", Action.updater args 0 false),
   ("refactor", Action.updater args (-2) false),
   ("ref", Action.updater args (-2) false),
   ("autoupdate", Action.updater args 0 true),
   ("autoparse", Action.updater args 2 true),
   ("todo", Action.other "todo" args),
   ("variant", Action.other "variant" args),
   ("node_exists", Action.other "node_exists" args),
   ("normal_exists", Action.other "normal_exists" args),
   ("sticky_exists", Action.other "sticky_exists" args),
   ("flags_exists", Action.other "flags_exists" args),
   ("create_flags_exists", Action.other "create_flags_exists" args),
   ("touch", Action.other "touch" args),
   ("node", Action.other "node" args),
   ("varshow", Action.other "varshow" args),
   ("dbconfig", Action.other "dbconfig" args),
   ("options", Action.other "options" args),
   ("fake_mtime", Action.other "fake_mtime" args),
   ("fake_parser_version", Action.other "fake_parser_version" args),
   ("flush", Action.other "flush" args),
   ("ghost_check", Action.other "ghost_check" args),
   ("monitor_supported", Action.other "monitor_supported" args)]

/-- Every command name the dispatch recognises. -/
def knownCmds : List String :=
  "varsed" :: (cmdTable []).map (fun p => p.1)

/-- The dispatch tail of main() for command `cmd` with argument vector
    `args` (`orig` is the untruncated argument list, used by the
    unknown-command fallback at src lines 332-337, which treats the
    pulled-out word as a file to update).  `vardict` models the
    TUP_VARDICT_NAME environment check at src lines 184-187. -/
def runCmd (vardict : Bool) (cmd : String) (args orig : List String) : Action :=
  if headIsVersionFlag args then Action.version
  else if cmd == "varsed" then Action.varsedCmd args
  else if vardict then Action.subprocError cmd
  else
    match List.lookup cmd (cmdTable args) with
    | some a => a
    | none => Action.updater orig 0 false

/-- The full dispatch of main() on the argument list after the
    executable name (src lines 105-356). -/
def dispatch (vardict : Bool) (args : List String) : Action :=
  if helpRequested args then
    match splitCmd args with
    | none => Action.helpGeneral
    | some (c, _) => helpAction c
  else
    match splitCmd args with
    | none => runCmd vardict "upd" args args
    | some (c, rest) => runCmd vardict c rest args

/-- No argument of the list names a known secondary command (the claim's
    precondition). -/
def noKnownCmd (args : List String) : Bool :=
  match splitCmd args with
  | none => true
  | some (c, _) => !(knownCmds.contains c)

/-- Whether --version or -v immediately follows the secondary command. -/
def versionAfterCmd (args : List String) : Bool :=
  match splitCmd args with
  | some (_, rest) => headIsVersionFlag rest
  | none => false

theorem lookup_eq_none_of_not_mem_keys {c : String} :
    ∀ (tbl : List (String × Action)), c ∉ tbl.map (fun p => p.1) →
      List.lookup c tbl = none := by
  intro tbl
  induction tbl with
  | nil => intro _; rfl
  | cons p rest ih =>
      intro h
      rw [List.map_cons, List.mem_cons] at h
      push_neg at h
      rw [List.lookup_cons]
      have : (c == p.1) = false := by
        simpa using h.1
      rw [this]
      exact ih h.2

/-- C9 counterexample: with the argument list ["-h"] (which names no
    secondary command), plain `tup -h` prints the general usage text
    while `tup upd -h` prints the help entry of upd, so the behaviour of
    the two invocations differs (both still exit 0). -/
theorem upd_default_help_counterexample :
    noKnownCmd ["-h"] = true ∧
    dispatch false ["-h"] = Action.helpGeneral ∧
    dispatch false ["upd", "-h"] = Action.helpCmd "upd" ∧
    dispatch false ["-h"] ≠ dispatch false ["upd", "-h"] := by
  refine ⟨by decide, by decide, by decide, by decide⟩

/-- C9 (amended): when no argument names a known secondary command, no
    -h or --help flag is present, the process is not running as a tup
    subprocess, and --version or -v is neither the first argument nor the
    argument right after the (unknown) command word, then invoking tup
    with the list and invoking `tup upd` with the same list both call
    updater(args, 0) on the identical argument vector, so their behaviour
    and exit code coincide.  (With -h the two print different help texts,
    both exiting 0; see the counterexample.) -/
theorem upd_default_equivalence (args : List String)
    (hk : noKnownCmd args = true)
    (hh : helpRequested args = false)
    (hv1 : headIsVersionFlag args = false)
    (hv2 : versionAfterCmd args = false) :
    dispatch false args = Action.updater args 0 false ∧
    dispatch false ("upd" :: args) = Action.updater args 0 false := by
  have hh' : helpRequested ("upd" :: args) = false := by
    simp only [helpRequested, List.any_cons] at hh ⊢
    rw [hh]
    rfl
  have hsplit' : splitCmd ("upd" :: args) = some ("upd", args) := rfl
  constructor
  · unfold dispatch
    rw [hh]
    simp only [Bool.false_eq_true, if_false]
    unfold noKnownCmd at hk
    match hs : splitCmd args with
    | none =>
        rw [hs] at hk
        show runCmd false "upd" args args = Action.updater args 0 false
        unfold runCmd
        rw [hv1]
        simp only [Bool.false_eq_true, if_false]
        rfl
    | some (c, rest) =>
        rw [hs] at hk
        show runCmd false c rest args = Action.updater args 0 false
        have hvr : headIsVersionFlag rest = false := by
          unfold versionAfterCmd at hv2
          rw [hs] at hv2
          exact hv2
        have hcmem : c ∉ knownCmds := by
          simp only [Bool.not_eq_true'] at hk
          intro hmem
          have hcontains : knownCmds.contains c = true := List.elem_eq_true_of_mem hmem
          rw [hcontains] at hk
          cases hk
        have hcv : (c == "varsed") = false := by
          have : c ≠ "varsed" := by
            intro h
            exact hcmem (by rw [h]; simp [knownCmds])
          simpa using this
        have hlook : List.lookup c (cmdTable rest) = none := by
          apply lookup_eq_none_of_not_mem_keys
          intro hmem
          apply hcmem
          unfold knownCmds
          rw [List.mem_cons]
          right
          have : (cmdTable rest).map (fun p => p.1) = (cmdTable []).map (fun p => p.1) := rfl
          rw [← this]
          exact hmem
        unfold runCmd
        rw [hvr, hcv, hlook]
        rfl
  · unfold dispatch
    rw [hh', hsplit']
    simp only [Bool.false_eq_true, if_false]
    show runCmd false "upd" args ("upd" :: args) = Action.updater args 0 false
    unfold runCmd
    rw [hv1]
    simp only [Bool.false_eq_true, if_false]
    rfl

theorem upd_default_equivalence_witness :
    dispatch false ["foo.c"] = Action.updater ["foo.c"] 0 false ∧
    dispatch false ["upd", "foo.c"] = Action.updater ["foo.c"] 0 false :=
  upd_default_equivalence ["foo.c"] (by decide) (by decide) (by decide) (by decide)

/-! ### The graph command (claims C1, C3, C4, C5, C6)

    From src/unnamed/part_000 lines 482-644.  graph() parses its options
    and seeds the graph either from the create and modify flag tables
    (default) or from its target arguments, then drains the pending list:
    for each popped node it follows the outgoing normal links (graph_cb),
    fans a group out to its distinct producers, and — unless the node is
    named tup.config — loads the node's directory children with cur
    reset to NULL.  --stickies adds the sticky-only edges afterwards. -/

/-- The display toggles show_dirs, show_ghosts and show_env consulted by
    graph_cb (src lines 482-484), initialised from the graph.* options
    and switched on by --dirs, --ghosts, --env. -/
structure GraphOpts where
  dirs : Bool
  ghosts : Bool
  env : Bool
  deriving DecidableEq, Repr

/-- The graph being built: `nodeList` holds the processed (or not yet
    pending) nodes, `plist` the pending ones, `edges` the created edges
    as (from-id, to-id) pairs.  A created node is moved to the head of
    plist the moment its expanded flag is set, which in graph() happens
    at creation for every node, so membership in the graph doubles as
    the expanded flag. -/
structure GGraph where
  nodeList : List TupEntry
  plist : List TupEntry
  edges : List (Nat × Nat)
  deriving DecidableEq, Repr

/-- All nodes of the graph (node_list plus plist). -/
def GGraph.nodes (g : GGraph) : List TupEntry := g.nodeList ++ g.plist

/-- find_node: id-keyed search over the graph's nodes. -/
def findNode (g : GGraph) (i : Nat) : Option TupEntry :=
  g.nodes.find? (fun t => t.id == i)

/-- The ids of the graph's vertex set. -/
def nodeIds (g : GGraph) : List Nat := g.nodes.map TupEntry.id

/-- The empty graph produced by create_graph.
    Modelled from the spec: create_graph is implemented outside the
    provided sources; spec section 4.F step 1 initialises V with the
    seeds only, so construction starts from an empty vertex set with no
    current node. -/
def emptyGraph : GGraph := { nodeList := [], plist := [], edges := [] }

/-- Modelled from the spec: `tup_db_select_node_by_link(cb, g, tupid)`
    (declared in db.h) enumerates the entries reachable over the node's
    outgoing normal edges — spec section 4.F step 2a, with the
    sticky-only edges left to the separate --stickies pass of step 3. -/
def selectNodeByLink (st : Store) (i : Nat) : List TupEntry :=
  (st.links.filter (fun l => l.src == i && l.normal)).filterMap
    (fun l => lookupEntry st l.dst)

/-- Modelled from the spec: `tup_db_select_node_dir(cb, g, dt)` (declared
    in db.h) enumerates the entries whose parent directory is `dt`. -/
def selectNodeDir (st : Store) (dt : Nat) : List TupEntry :=
  st.entries.filter (fun t => t.dt == dt)

/-- Modelled from the spec:
    `tup_db_select_node_by_distinct_group_link(cb, g, tupid)` (declared
    in db.h) enumerates, once each, the commands producing into the
    group — spec section 4.D, "the engine must deduplicate when
    collapsing a group to its producers". -/
def selectDistinctGroupProducers (st : Store) (i : Nat) : List TupEntry :=
  (((st.links.filter (fun l => l.dst == i && l.grp)).map (fun l => l.src)).dedup).filterMap
    (lookupEntry st)

/-- Modelled from the spec: `tup_db_select_node_by_flags(cb, g, flags)`
    (declared in db.h) enumerates the entries of one flag table — spec
    section 4.C, `iterate(callback)`. -/
def selectNodeByFlagList (st : Store) (flags : List Nat) : List TupEntry :=
  flags.filterMap (lookupEntry st)

/-- Node insertion as done by graph_cb and the target-seeding loop: a
    node absent from the graph is created with its expanded flag set and
    put at the head of plist; a present node is left alone (its expanded
    flag is already set, see GGraph's doc comment). -/
def insertNode (g : GGraph) (t : TupEntry) : GGraph :=
  match findNode g t.id with
  | some _ => g
  | none => { g with plist := t :: g.plist }

/-- create_edge(g->cur, n, TUP_LINK_NORMAL) when a current node is set
    (src lines 522-524). -/
def addEdgeTo (cur : Option Nat) (g : GGraph) (t : TupEntry) : GGraph :=
  match cur with
  | some c => { g with edges := (c, t.id) :: g.edges }
  | none => g

/-- graph_cb (src lines 485-526): skip ghosts unless show_ghosts, skip
    environment nodes unless show_env, skip directories unless show_dirs
    — but only when a current node is set (`!show_dirs && g->cur`);
    otherwise ensure the node is in the graph and pending, and create an
    edge from the current node. -/
def graph_cb (o : GraphOpts) (st : Store) (cur : Option Nat) (g : GGraph)
    (tent : TupEntry) : GGraph :=
  if !o.ghosts && tent.type == TupNodeType.ghost then g
  else if !o.env && (tent.id == st.envDt || tent.dt == st.envDt) then g
  else if !o.dirs && cur.isSome &&
      (tent.type == TupNodeType.dir || tent.type == TupNodeType.generatedDir) then g
  else addEdgeTo cur (insertNode g tent) tent

/-- Modelled from the spec: build_graph_group_cb (implemented outside the
    provided sources) handles one producing command of a group — spec
    section 4.F step 2b, "additionally add edges to each producing
    command": ensure the command is in the graph and pending and add the
    edge from the group. -/
def build_graph_group_cb (g : GGraph) (cur : Nat) (tent : TupEntry) : GGraph :=
  addEdgeTo (some cur) (insertNode g tent) tent

/-- node_remove_list(&g.plist, g.cur) followed by
    node_insert_head(&g.node_list, g.cur) (src lines 616-619). -/
def moveCur (g : GGraph) (cur : TupEntry) : GGraph :=
  { nodeList := cur :: g.nodeList
    plist := g.plist.eraseP (fun t => t.id == cur.id)
    edges := g.edges }

/-- tup_db_select_node_by_link(graph_cb, &g, g.cur->tnode.tupid)
    (src lines 610-611). -/
def linkPhase (o : GraphOpts) (st : Store) (g : GGraph) (cur : TupEntry) : GGraph :=
  (selectNodeByLink st cur.id).foldl (graph_cb o st (some cur.id)) g

/-- The group fan-out (src lines 612-615): when cur is a group, feed
    build_graph_group_cb each distinct producing command. -/
def groupPhase (st : Store) (g : GGraph) (cur : TupEntry) : GGraph :=
  if cur.type == TupNodeType.group then
    (selectDistinctGroupProducers st cur.id).foldl
      (fun g t => build_graph_group_cb g cur.id t) g
  else g

/-- The directory fan-out (src lines 621-626): unless cur's name is
    tup.config, feed graph_cb every child of cur's directory, with the
    current node reset to NULL. -/
def dirPhase (o : GraphOpts) (st : Store) (g : GGraph) (cur : TupEntry) : GGraph :=
  if cur.name ≠ TUP_CONFIG then
    (selectNodeDir st cur.id).foldl (graph_cb o st none) g
  else g

/-- One iteration of the expansion loop of graph() (src lines 608-627):
    follow cur's outgoing normal links; if cur is a group, fan out to its
    distinct producers; move cur from plist to node_list; then the
    directory fan-out. -/
def graphStep (o : GraphOpts) (st : Store) (g : GGraph) (cur : TupEntry) : GGraph :=
  dirPhase o st (moveCur (groupPhase st (linkPhase o st g cur) cur) cur) cur

/-- The while loop of graph() (src line 608), with explicit fuel; each
    iteration processes the head of plist. -/
def graphExpand (o : GraphOpts) (st : Store) : Nat → GGraph → GGraph
  | 0, g => g
  | Nat.succ fuel, g =>
    match g.plist with
    | [] => g
    | cur :: _ => graphExpand o st fuel (graphStep o st g cur)

/-- The default seeding of graph() (src lines 601-606): feed graph_cb
    every node of the create flag table, then of the modify flag table,
    with no current node. -/
def seedDefault (o : GraphOpts) (st : Store) (g : GGraph) : GGraph :=
  let g1 := (selectNodeByFlagList st st.createList).foldl (graph_cb o st none) g
  (selectNodeByFlagList st st.modifyList).foldl (graph_cb o st none) g1

/-- Seeding one user-supplied target (src lines 588-598): the resolved
    entry is created if absent, marked expanded, and put at the head of
    plist; no display filter and no edge is involved. -/
def seedTarget (g : GGraph) (tent : TupEntry) : GGraph :=
  insertNode g tent

/-- The state of graph()'s argument loop: the display options, the
    combine and stickies flags, default_graph, the trailing --prune
    arguments, and the graph holding the target seeds. -/
structure GraphRunCfg where
  opts : GraphOpts
  combine : Bool
  stickies : Bool
  defaultGraph : Bool
  pruneArgs : Option (List String)
  g : GGraph
  deriving DecidableEq, Repr

/-- The argument loop of graph() (src lines 554-600): option flags set
    their toggles, --prune stops the parse, and any other argument is
    resolved (get_tent_dt) and seeded as a target; an unresolvable
    target is an error (none). -/
def graphArgLoop (resolve : String → Option TupEntry) :
    GraphRunCfg → List String → Option GraphRunCfg
  | cfg, [] => some cfg
  | cfg, a :: rest =>
    if a == "--dirs" then graphArgLoop resolve { cfg with opts.dirs := true } rest
    else if a == "--ghosts" then graphArgLoop resolve { cfg with opts.ghosts := true } rest
    else if a == "--env" then graphArgLoop resolve { cfg with opts.env := true } rest
    else if a == "--combine" then graphArgLoop resolve { cfg with combine := true } rest
    else if a == "--stickies" then graphArgLoop resolve { cfg with stickies := true } rest
    else if a == "--prune" then some { cfg with pruneArgs := some (a :: rest) }
    else
      match resolve a with
      | none => none
      | some tent =>
          graphArgLoop resolve
            { cfg with defaultGraph := false, g := seedTarget cfg.g tent } rest

/-- The initial loop state: toggles from the graph.* options, stickies
    off, default_graph = 1, empty graph. -/
def initialCfg (o : GraphOpts) (combine : Bool) : GraphRunCfg :=
  { opts := o, combine := combine, stickies := false, defaultGraph := true,
    pruneArgs := none, g := emptyGraph }

/-- Modelled from the spec: add_graph_stickies (implemented outside the
    provided sources) — spec section 4.F step 3, "After expansion,
    optionally add sticky-only edges": for every sticky link with no
    normal component between two nodes already in the graph, add the
    edge. -/
def add_graph_stickies (st : Store) (g : GGraph) : GGraph :=
  { g with edges := g.edges ++
      ((st.links.filter (fun l => l.sticky && !l.normal &&
          (nodeIds g).contains l.src && (nodeIds g).contains l.dst)).map
        (fun l => (l.src, l.dst))) }

/-- The seeded graph before expansion: default-mode flag seeding or the
    target seeds accumulated by the argument loop. -/
def graphSeeded (cfg : GraphRunCfg) (st : Store) : GGraph :=
  if cfg.defaultGraph then seedDefault cfg.opts st cfg.g else cfg.g

/-- Fuel that provably drains the worklist: every node created during
    expansion comes from the node table, and each node is processed at
    most once. -/
def graphFuel (st : Store) (g0 : GGraph) : Nat :=
  g0.plist.length + st.entries.length

/-- The drained graph: the expansion loop run to completion. -/
def graphDrained (cfg : GraphRunCfg) (st : Store) : GGraph :=
  graphExpand cfg.opts st (graphFuel st (graphSeeded cfg st)) (graphSeeded cfg st)

/-- Graph construction as performed by the graph command (src lines
    528-631, up to the optional prune and the dump, which only display
    the constructed graph): parse arguments and seeds, drain the
    worklist, then optionally add the sticky-only edges. -/
def graphConstruct (o : GraphOpts) (combine : Bool) (resolve : String → Option TupEntry)
    (st : Store) (args : List String) : Option (GraphRunCfg × GGraph) :=
  match graphArgLoop resolve (initialCfg o combine) args with
  | none => none
  | some cfg =>
      some (cfg, if cfg.stickies then add_graph_stickies st (graphDrained cfg st)
                 else graphDrained cfg st)

/-! ### Basic graph lemmas -/

theorem mem_nodeIds {g : GGraph} {i : Nat} :
    i ∈ nodeIds g ↔ ∃ t ∈ g.nodes, t.id = i := by
  unfold nodeIds
  simp [List.mem_map]

theorem mem_nodeIds_of_mem {g : GGraph} {t : TupEntry} (h : t ∈ g.nodes) :
    t.id ∈ nodeIds g :=
  mem_nodeIds.mpr ⟨t, h, rfl⟩

theorem findNode_eq_none {g : GGraph} {i : Nat} :
    findNode g i = none ↔ i ∉ nodeIds g := by
  unfold findNode
  rw [List.find?_eq_none]
  constructor
  · intro h hmem
    rcases mem_nodeIds.mp hmem with ⟨t, ht, hid⟩
    have := h t ht
    simp [hid] at this
  · intro h t ht hid
    refine h (mem_nodeIds.mpr ⟨t, ht, ?_⟩)
    simpa using hid

theorem findNode_mem {g : GGraph} {i : Nat} {t : TupEntry}
    (h : findNode g i = some t) : t ∈ g.nodes ∧ t.id = i := by
  refine ⟨List.mem_of_find?_eq_some h, ?_⟩
  have := List.find?_some h
  simpa using this

theorem insertNode_nodeList (g : GGraph) (t : TupEntry) :
    (insertNode g t).nodeList = g.nodeList := by
  unfold insertNode
  cases findNode g t.id <;> rfl

theorem insertNode_edges (g : GGraph) (t : TupEntry) :
    (insertNode g t).edges = g.edges := by
  unfold insertNode
  cases findNode g t.id <;> rfl

theorem insertNode_plist_cases (g : GGraph) (t : TupEntry) :
    (insertNode g t).plist = g.plist ∨ (insertNode g t).plist = t :: g.plist := by
  unfold insertNode
  cases findNode g t.id
  · right; rfl
  · left; rfl

theorem mem_nodes_insertNode {g : GGraph} {t u : TupEntry} :
    u ∈ (insertNode g t).nodes ↔
      u ∈ g.nodes ∨ (findNode g t.id = none ∧ u = t) := by
  unfold insertNode
  cases h : findNode g t.id with
  | none =>
      show u ∈ g.nodeList ++ t :: g.plist ↔ _
      rw [GGraph.nodes, List.mem_append, List.mem_append, List.mem_cons]
      tauto
  | some v =>
      simp [h]

theorem id_mem_insertNode (g : GGraph) (t : TupEntry) :
    t.id ∈ nodeIds (insertNode g t) := by
  cases h : findNode g t.id with
  | none =>
      exact mem_nodeIds_of_mem (mem_nodes_insertNode.mpr (Or.inr ⟨h, rfl⟩))
  | some v =>
      rcases findNode_mem h with ⟨hv, hid⟩
      have : v ∈ (insertNode g t).nodes := mem_nodes_insertNode.mpr (Or.inl hv)
      rw [← hid]
      exact mem_nodeIds_of_mem this

theorem mem_nodes_insertNode_of {g : GGraph} {t u : TupEntry} (h : u ∈ g.nodes) :
    u ∈ (insertNode g t).nodes :=
  mem_nodes_insertNode.mpr (Or.inl h)

theorem addEdgeTo_nodeList (cur : Option Nat) (g : GGraph) (t : TupEntry) :
    (addEdgeTo cur g t).nodeList = g.nodeList := by
  cases cur <;> rfl

theorem addEdgeTo_plist (cur : Option Nat) (g : GGraph) (t : TupEntry) :
    (addEdgeTo cur g t).plist = g.plist := by
  cases cur <;> rfl

theorem addEdgeTo_nodes (cur : Option Nat) (g : GGraph) (t : TupEntry) :
    (addEdgeTo cur g t).nodes = g.nodes := by
  cases cur <;> rfl

theorem mem_edges_addEdgeTo {cur : Option Nat} {g : GGraph} {t : TupEntry}
    {e : Nat × Nat} :
    e ∈ (addEdgeTo cur g t).edges ↔
      e ∈ g.edges ∨ (∃ c, cur = some c ∧ e = (c, t.id)) := by
  cases cur with
  | none => simp [addEdgeTo]
  | some c =>
      simp only [addEdgeTo, List.mem_cons]
      constructor
      · rintro (h | h)
        · exact Or.inr ⟨c, rfl, h⟩
        · exact Or.inl h
      · rintro (h | ⟨c', hc, he⟩)
        · exact Or.inr h
        · cases hc
          exact Or.inl he

/-- The three display filters of graph_cb as one predicate, with
    `curSome` standing for `g->cur != NULL`. -/
def passFilter (o : GraphOpts) (st : Store) (curSome : Bool) (t : TupEntry) : Bool :=
  !(!o.ghosts && t.type == TupNodeType.ghost) &&
  !(!o.env && (t.id == st.envDt || t.dt == st.envDt)) &&
  !(!o.dirs && curSome &&
    (t.type == TupNodeType.dir || t.type == TupNodeType.generatedDir))

theorem graph_cb_of_pass {o : GraphOpts} {st : Store} {u : Option Nat} {g : GGraph}
    {t : TupEntry} (h : passFilter o st u.isSome t = true) :
    graph_cb o st u g t = addEdgeTo u (insertNode g t) t := by
  unfold passFilter at h
  simp only [Bool.and_eq_true, Bool.not_eq_true'] at h
  obtain ⟨⟨hA, hB⟩, hC⟩ := h
  unfold graph_cb
  rw [hA, hB, hC]
  simp

theorem graph_cb_of_fail {o : GraphOpts} {st : Store} {cur : Option Nat} {g : GGraph}
    {t : TupEntry} (h : passFilter o st cur.isSome t = false) :
    graph_cb o st cur g t = g := by
  unfold graph_cb
  by_cases hA : (!o.ghosts && t.type == TupNodeType.ghost) = true
  · simp [hA]
  · by_cases hB : (!o.env && (t.id == st.envDt || t.dt == st.envDt)) = true
    · simp [hA, hB]
    · by_cases hC : (!o.dirs && cur.isSome &&
          (t.type == TupNodeType.dir || t.type == TupNodeType.generatedDir)) = true
      · simp [hA, hB, hC]
      · exfalso
        rw [Bool.not_eq_true] at hA hB hC
        unfold passFilter at h
        rw [hA, hB, hC] at h
        simp at h

theorem graph_cb_nodeList (o : GraphOpts) (st : Store) (cur : Option Nat) (g : GGraph)
    (t : TupEntry) : (graph_cb o st cur g t).nodeList = g.nodeList := by
  cases h : passFilter o st cur.isSome t
  · rw [graph_cb_of_fail h]
  · rw [graph_cb_of_pass h, addEdgeTo_nodeList, insertNode_nodeList]

theorem graph_cb_plist_cases (o : GraphOpts) (st : Store) (cur : Option Nat) (g : GGraph)
    (t : TupEntry) :
    (graph_cb o st cur g t).plist = g.plist ∨
      (graph_cb o st cur g t).plist = t :: g.plist := by
  cases h : passFilter o st cur.isSome t
  · rw [graph_cb_of_fail h]
    exact Or.inl rfl
  · rw [graph_cb_of_pass h, addEdgeTo_plist]
    exact insertNode_plist_cases g t

theorem graph_cb_nodes_mono {o : GraphOpts} {st : Store} {cur : Option Nat} {g : GGraph}
    {t u : TupEntry} (h : u ∈ g.nodes) : u ∈ (graph_cb o st cur g t).nodes := by
  cases hp : passFilter o st cur.isSome t
  · rw [graph_cb_of_fail hp]
    exact h
  · rw [graph_cb_of_pass hp, addEdgeTo_nodes]
    exact mem_nodes_insertNode_of h

theorem graph_cb_edges_mono {o : GraphOpts} {st : Store} {cur : Option Nat} {g : GGraph}
    {t : TupEntry} {e : Nat × Nat} (h : e ∈ g.edges) :
    e ∈ (graph_cb o st cur g t).edges := by
  cases hp : passFilter o st cur.isSome t
  · rw [graph_cb_of_fail hp]
    exact h
  · rw [graph_cb_of_pass hp]
    rw [mem_edges_addEdgeTo, insertNode_edges]
    exact Or.inl h

theorem graph_cb_nodes_upper {o : GraphOpts} {st : Store} {cur : Option Nat} {g : GGraph}
    {t u : TupEntry} (h : u ∈ (graph_cb o st cur g t).nodes) :
    u ∈ g.nodes ∨ (u = t ∧ passFilter o st cur.isSome t = true) := by
  cases hp : passFilter o st cur.isSome t
  · rw [graph_cb_of_fail hp] at h
    exact Or.inl h
  · rw [graph_cb_of_pass hp, addEdgeTo_nodes] at h
    rcases mem_nodes_insertNode.mp h with h | ⟨_, h⟩
    · exact Or.inl h
    · exact Or.inr ⟨h, rfl⟩

theorem graph_cb_edges_upper {o : GraphOpts} {st : Store} {cur : Option Nat} {g : GGraph}
    {t : TupEntry} {e : Nat × Nat} (h : e ∈ (graph_cb o st cur g t).edges) :
    e ∈ g.edges ∨
      (∃ c, cur = some c ∧ e = (c, t.id) ∧ passFilter o st cur.isSome t = true) := by
  cases hp : passFilter o st cur.isSome t
  · rw [graph_cb_of_fail hp] at h
    exact Or.inl h
  · rw [graph_cb_of_pass hp, mem_edges_addEdgeTo, insertNode_edges] at h
    rcases h with h | ⟨c, hc, he⟩
    · exact Or.inl h
    · exact Or.inr ⟨c, hc, he, rfl⟩

theorem group_cb_nodes_mono {g : GGraph} {c : Nat} {t u : TupEntry} (h : u ∈ g.nodes) :
    u ∈ (build_graph_group_cb g c t).nodes := by
  unfold build_graph_group_cb
  rw [addEdgeTo_nodes]
  exact mem_nodes_insertNode_of h

theorem group_cb_edges_mono {g : GGraph} {c : Nat} {t : TupEntry} {e : Nat × Nat}
    (h : e ∈ g.edges) : e ∈ (build_graph_group_cb g c t).edges := by
  unfold build_graph_group_cb
  rw [mem_edges_addEdgeTo, insertNode_edges]
  exact Or.inl h

theorem group_cb_nodes_upper {g : GGraph} {c : Nat} {t u : TupEntry}
    (h : u ∈ (build_graph_group_cb g c t).nodes) : u ∈ g.nodes ∨ u = t := by
  unfold build_graph_group_cb at h
  rw [addEdgeTo_nodes] at h
  rcases mem_nodes_insertNode.mp h with h | ⟨_, h⟩
  · exact Or.inl h
  · exact Or.inr h

theorem group_cb_edges_upper {g : GGraph} {c : Nat} {t : TupEntry} {e : Nat × Nat}
    (h : e ∈ (build_graph_group_cb g c t).edges) :
    e ∈ g.edges ∨ e = (c, t.id) := by
  unfold build_graph_group_cb at h
  rw [mem_edges_addEdgeTo, insertNode_edges] at h
  rcases h with h | ⟨c', hc, he⟩
  · exact Or.inl h
  · cases hc
    exact Or.inr he

theorem group_cb_nodeList (g : GGraph) (c : Nat) (t : TupEntry) :
    (build_graph_group_cb g c t).nodeList = g.nodeList := by
  unfold build_graph_group_cb
  rw [addEdgeTo_nodeList, insertNode_nodeList]

theorem group_cb_plist_cases (g : GGraph) (c : Nat) (t : TupEntry) :
    (build_graph_group_cb g c t).plist = g.plist ∨
      (build_graph_group_cb g c t).plist = t :: g.plist := by
  unfold build_graph_group_cb
  rw [addEdgeTo_plist]
  exact insertNode_plist_cases g t

/-! ### Generic lemmas for the callback folds -/

theorem foldl_nodes_mono {f : GGraph → TupEntry → GGraph}
    (hmono : ∀ g t, ∀ u ∈ g.nodes, u ∈ (f g t).nodes) :
    ∀ (ts : List TupEntry) (g : GGraph), ∀ u ∈ g.nodes, u ∈ (ts.foldl f g).nodes := by
  intro ts
  induction ts with
  | nil => intro g u hu; exact hu
  | cons t rest ih => intro g u hu; exact ih (f g t) u (hmono g t u hu)

theorem foldl_edges_mono {f : GGraph → TupEntry → GGraph}
    (hmono : ∀ g t, ∀ e ∈ g.edges, e ∈ (f g t).edges) :
    ∀ (ts : List TupEntry) (g : GGraph), ∀ e ∈ g.edges, e ∈ (ts.foldl f g).edges := by
  intro ts
  induction ts with
  | nil => intro g e he; exact he
  | cons t rest ih => intro g e he; exact ih (f g t) e (hmono g t e he)

theorem foldl_nodeList_eq {f : GGraph → TupEntry → GGraph}
    (heq : ∀ g t, (f g t).nodeList = g.nodeList) :
    ∀ (ts : List TupEntry) (g : GGraph), (ts.foldl f g).nodeList = g.nodeList := by
  intro ts
  induction ts with
  | nil => intro g; rfl
  | cons t rest ih => intro g; rw [List.foldl_cons, ih, heq]

theorem foldl_nodes_upper {f : GGraph → TupEntry → GGraph} {cond : TupEntry → Prop}
    (hup : ∀ g t, ∀ u ∈ (f g t).nodes, u ∈ g.nodes ∨ (u = t ∧ cond t)) :
    ∀ (ts : List TupEntry) (g : GGraph), ∀ u ∈ (ts.foldl f g).nodes,
      u ∈ g.nodes ∨ ∃ t ∈ ts, u = t ∧ cond t := by
  intro ts
  induction ts with
  | nil => intro g u hu; exact Or.inl hu
  | cons t rest ih =>
      intro g u hu
      rcases ih (f g t) u hu with h | ⟨t', ht', h⟩
      · rcases hup g t u h with h | h
        · exact Or.inl h
        · exact Or.inr ⟨t, List.mem_cons_self t rest, h⟩
      · exact Or.inr ⟨t', List.mem_cons_of_mem t ht', h⟩

theorem foldl_edges_upper {f : GGraph → TupEntry → GGraph} {c : Nat}
    {cond : TupEntry → Prop}
    (hup : ∀ g t, ∀ e ∈ (f g t).edges, e ∈ g.edges ∨ (e = (c, t.id) ∧ cond t)) :
    ∀ (ts : List TupEntry) (g : GGraph), ∀ e ∈ (ts.foldl f g).edges,
      e ∈ g.edges ∨ ∃ t ∈ ts, e = (c, t.id) ∧ cond t := by
  intro ts
  induction ts with
  | nil => intro g e he; exact Or.inl he
  | cons t rest ih =>
      intro g e he
      rcases ih (f g t) e he with h | ⟨t', ht', h⟩
      · rcases hup g t e h with h | h
        · exact Or.inl h
        · exact Or.inr ⟨t, List.mem_cons_self t rest, h⟩
      · exact Or.inr ⟨t', List.mem_cons_of_mem t ht', h⟩

theorem foldl_plist_extend {f : GGraph → TupEntry → GGraph}
    (hext : ∀ g t, (f g t).plist = g.plist ∨ (f g t).plist = t :: g.plist) :
    ∀ (ts : List TupEntry) (g : GGraph),
      ∃ pre, (ts.foldl f g).plist = pre ++ g.plist ∧ ∀ u ∈ pre, u ∈ ts := by
  intro ts
  induction ts with
  | nil => intro g; exact ⟨[], rfl, by simp⟩
  | cons t rest ih =>
      intro g
      rcases ih (f g t) with ⟨pre, hpre, hmem⟩
      rcases hext g t with h | h
      · refine ⟨pre, by rw [List.foldl_cons, hpre, h], ?_⟩
        intro u hu
        exact List.mem_cons_of_mem t (hmem u hu)
      · refine ⟨pre ++ [t], by rw [List.foldl_cons, hpre, h, List.append_assoc]; rfl, ?_⟩
        intro u hu
        rcases List.mem_append.mp hu with hu | hu
        · exact List.mem_cons_of_mem t (hmem u hu)
        · rw [List.mem_singleton.mp hu]
          exact List.mem_cons_self t rest

theorem foldl_preserves {f : GGraph → TupEntry → GGraph} {R : TupEntry → GGraph → Prop}
    (hpres : ∀ g t u, R u g → R u (f g t)) :
    ∀ (ts : List TupEntry) (g : GGraph) (u : TupEntry), R u g → R u (ts.foldl f g) := by
  intro ts
  induction ts with
  | nil => intro g u h; exact h
  | cons t rest ih => intro g u h; exact ih (f g t) u (hpres g t u h)

theorem foldl_ensures {f : GGraph → TupEntry → GGraph} {R : TupEntry → GGraph → Prop}
    {q : TupEntry → Prop}
    (hstep : ∀ g t, q t → R t (f g t))
    (hpres : ∀ g t u, R u g → R u (f g t)) :
    ∀ (ts : List TupEntry) (g : GGraph), ∀ t ∈ ts, q t → R t (ts.foldl f g) := by
  intro ts
  induction ts with
  | nil => intro g t ht; cases ht
  | cons a rest ih =>
      intro g t ht hc
      rcases List.mem_cons.mp ht with h | h
      · subst h
        exact foldl_preserves hpres rest (f g t) t (hstep g t hc)
      · exact ih (f g a) t h hc

/-! ### Termination potential and graph well-formedness -/

/-- The ids of the node table, as a finite set. -/
def entryIdsF (st : Store) : Finset Nat := (st.entries.map TupEntry.id).toFinset

/-- The ids of the graph, as a finite set. -/
def nodeIdsF (g : GGraph) : Finset Nat := (nodeIds g).toFinset

/-- Termination potential of the expansion loop: pending nodes plus
    node-table ids not yet in the graph.  Every loop iteration strictly
    decreases it. -/
def phiG (st : Store) (g : GGraph) : Nat :=
  g.plist.length + (entryIdsF st \ nodeIdsF g).card

/-- Invariant of graph construction: every node of the graph is a row of
    the node table, and node ids are unique (find_node guards
    insertion). -/
structure GWF (st : Store) (g : GGraph) : Prop where
  sub : ∀ t ∈ g.nodes, t ∈ st.entries
  nodup : (nodeIds g).Nodup

theorem mem_nodeIdsF {g : GGraph} {i : Nat} : i ∈ nodeIdsF g ↔ i ∈ nodeIds g :=
  List.mem_toFinset

theorem insertNode_absent (g : GGraph) (t : TupEntry) (h : findNode g t.id = none) :
    insertNode g t = { g with plist := t :: g.plist } := by
  unfold insertNode
  rw [h]

theorem insertNode_present (g : GGraph) (t : TupEntry) {v : TupEntry}
    (h : findNode g t.id = some v) : insertNode g t = g := by
  unfold insertNode
  rw [h]

theorem nodeIds_absent_perm (g : GGraph) (t : TupEntry) :
    (nodeIds ({ g with plist := t :: g.plist } : GGraph)).Perm (t.id :: nodeIds g) := by
  unfold nodeIds GGraph.nodes
  simp only [List.map_append, List.map_cons]
  exact List.perm_middle

theorem phiG_insertNode {st : Store} {g : GGraph} {t : TupEntry} (ht : t ∈ st.entries) :
    phiG st (insertNode g t) ≤ phiG st g := by
  cases h : findNode g t.id with
  | some v =>
      rw [insertNode_present g t h]
  | none =>
      rw [insertNode_absent g t h]
      have hid : t.id ∉ nodeIds g := findNode_eq_none.mp h
      have htid : t.id ∈ entryIdsF st \ nodeIdsF g := by
        rw [Finset.mem_sdiff]
        refine ⟨List.mem_toFinset.mpr (List.mem_map.mpr ⟨t, ht, rfl⟩), ?_⟩
        rw [mem_nodeIdsF]
        exact hid
      have hnodes : nodeIdsF ({ g with plist := t :: g.plist } : GGraph) =
          insert t.id (nodeIdsF g) := by
        unfold nodeIdsF
        ext i
        rw [List.mem_toFinset, (nodeIds_absent_perm g t).mem_iff]
        simp [List.mem_toFinset]
      have hsd : entryIdsF st \ insert t.id (nodeIdsF g) =
          (entryIdsF st \ nodeIdsF g).erase t.id := by
        ext i
        simp only [Finset.mem_sdiff, Finset.mem_erase, Finset.mem_insert]
        tauto
      unfold phiG
      rw [hnodes, hsd, Finset.card_erase_of_mem htid]
      have hpos : 0 < (entryIdsF st \ nodeIdsF g).card := Finset.card_pos.mpr ⟨t.id, htid⟩
      simp only [List.length_cons]
      omega

theorem phiG_addEdgeTo (st : Store) (cur : Option Nat) (g : GGraph) (t : TupEntry) :
    phiG st (addEdgeTo cur g t) = phiG st g := by
  cases cur <;> rfl

theorem phiG_graph_cb {st : Store} {o : GraphOpts} {cur : Option Nat} {g : GGraph}
    {t : TupEntry} (ht : t ∈ st.entries) :
    phiG st (graph_cb o st cur g t) ≤ phiG st g := by
  cases hp : passFilter o st cur.isSome t
  · rw [graph_cb_of_fail hp]
  · rw [graph_cb_of_pass hp, phiG_addEdgeTo]
    exact phiG_insertNode ht

theorem phiG_group_cb {st : Store} {g : GGraph} {c : Nat} {t : TupEntry}
    (ht : t ∈ st.entries) : phiG st (build_graph_group_cb g c t) ≤ phiG st g := by
  unfold build_graph_group_cb
  rw [phiG_addEdgeTo]
  exact phiG_insertNode ht

theorem foldl_phiG {st : Store} {f : GGraph → TupEntry → GGraph}
    (hstep : ∀ g t, t ∈ st.entries → phiG st (f g t) ≤ phiG st g) :
    ∀ (ts : List TupEntry) (g : GGraph), (∀ t ∈ ts, t ∈ st.entries) →
      phiG st (ts.foldl f g) ≤ phiG st g := by
  intro ts
  induction ts with
  | nil => intro g _; exact le_refl _
  | cons t rest ih =>
      intro g hmem
      calc phiG st ((t :: rest).foldl f g) = phiG st (rest.foldl f (f g t)) := rfl
        _ ≤ phiG st (f g t) := ih (f g t) (fun u hu => hmem u (List.mem_cons_of_mem t hu))
        _ ≤ phiG st g := hstep g t (hmem t (List.mem_cons_self t rest))

theorem GWF_congr_nodes {st : Store} {g g' : GGraph} (h : g'.nodes = g.nodes)
    (hG : GWF st g) : GWF st g' := by
  constructor
  · rw [h]; exact hG.sub
  · unfold nodeIds; rw [h]; exact hG.nodup

theorem GWF_perm_nodes {st : Store} {g g' : GGraph} (h : g'.nodes.Perm g.nodes)
    (hG : GWF st g) : GWF st g' := by
  constructor
  · intro t ht
    exact hG.sub t (h.mem_iff.mp ht)
  · unfold nodeIds
    rw [List.Perm.nodup_iff (h.map TupEntry.id)]
    exact hG.nodup

theorem GWF_insertNode {st : Store} {g : GGraph} {t : TupEntry} (ht : t ∈ st.entries)
    (hG : GWF st g) : GWF st (insertNode g t) := by
  cases h : findNode g t.id with
  | some v => rw [insertNode_present g t h]; exact hG
  | none =>
      rw [insertNode_absent g t h]
      constructor
      · intro u hu
        have hu' : u ∈ (insertNode g t).nodes := by rw [insertNode_absent g t h]; exact hu
        rcases mem_nodes_insertNode.mp hu' with h' | ⟨_, h'⟩
        · exact hG.sub u h'
        · rw [h']; exact ht
      · rw [List.Perm.nodup_iff (nodeIds_absent_perm g t)]
        exact List.nodup_cons.mpr ⟨findNode_eq_none.mp h, hG.nodup⟩

theorem GWF_addEdgeTo {st : Store} {cur : Option Nat} {g : GGraph} {t : TupEntry}
    (hG : GWF st g) : GWF st (addEdgeTo cur g t) :=
  GWF_congr_nodes (addEdgeTo_nodes cur g t) hG

theorem GWF_graph_cb {st : Store} {o : GraphOpts} {cur : Option Nat} {g : GGraph}
    {t : TupEntry} (ht : t ∈ st.entries) (hG : GWF st g) :
    GWF st (graph_cb o st cur g t) := by
  cases hp : passFilter o st cur.isSome t
  · rw [graph_cb_of_fail hp]; exact hG
  · rw [graph_cb_of_pass hp]
    exact GWF_addEdgeTo (GWF_insertNode ht hG)

theorem GWF_group_cb {st : Store} {g : GGraph} {c : Nat} {t : TupEntry}
    (ht : t ∈ st.entries) (hG : GWF st g) : GWF st (build_graph_group_cb g c t) :=
  GWF_addEdgeTo (GWF_insertNode ht hG)

theorem foldl_GWF {st : Store} {f : GGraph → TupEntry → GGraph}
    (hstep : ∀ g t, t ∈ st.entries → GWF st g → GWF st (f g t)) :
    ∀ (ts : List TupEntry) (g : GGraph), (∀ t ∈ ts, t ∈ st.entries) → GWF st g →
      GWF st (ts.foldl f g) := by
  intro ts
  induction ts with
  | nil => intro g _ hG; exact hG
  | cons t rest ih =>
      intro g hmem hG
      exact ih (f g t) (fun u hu => hmem u (List.mem_cons_of_mem t hu))
        (hstep g t (hmem t (List.mem_cons_self t rest)) hG)

/-! ### Membership in the query results -/

theorem mem_selectNodeByLink_sub {st : Store} {i : Nat} {t : TupEntry}
    (h : t ∈ selectNodeByLink st i) : t ∈ st.entries := by
  unfold selectNodeByLink at h
  rcases List.mem_filterMap.mp h with ⟨l, _, hl⟩
  exact (lookupEntry_mem hl).1

theorem mem_selectNodeDir_iff {st : Store} {i : Nat} {t : TupEntry} :
    t ∈ selectNodeDir st i ↔ t ∈ st.entries ∧ t.dt = i := by
  unfold selectNodeDir
  rw [List.mem_filter]
  simp

theorem mem_selectNodeDir_sub {st : Store} {i : Nat} {t : TupEntry}
    (h : t ∈ selectNodeDir st i) : t ∈ st.entries :=
  (mem_selectNodeDir_iff.mp h).1

theorem mem_selectDistinctGroupProducers_sub {st : Store} {i : Nat} {t : TupEntry}
    (h : t ∈ selectDistinctGroupProducers st i) : t ∈ st.entries := by
  unfold selectDistinctGroupProducers at h
  rcases List.mem_filterMap.mp h with ⟨j, _, hj⟩
  exact (lookupEntry_mem hj).1

theorem mem_selectNodeByFlagList_sub {st : Store} {fl : List Nat} {t : TupEntry}
    (h : t ∈ selectNodeByFlagList st fl) : t ∈ st.entries := by
  unfold selectNodeByFlagList at h
  rcases List.mem_filterMap.mp h with ⟨j, _, hj⟩
  exact (lookupEntry_mem hj).1

theorem mem_selectNodeByLink_iff {st : Store} (hw : st.WF) {i : Nat} {t : TupEntry} :
    t ∈ selectNodeByLink st i ↔
      t ∈ st.entries ∧ ∃ l ∈ st.links, l.src = i ∧ l.normal = true ∧ l.dst = t.id := by
  unfold selectNodeByLink
  rw [List.mem_filterMap]
  constructor
  · rintro ⟨l, hl, hlook⟩
    rw [List.mem_filter] at hl
    rcases lookupEntry_mem hlook with ⟨hmem, hid⟩
    have hc := hl.2
    simp only [Bool.and_eq_true, beq_iff_eq] at hc
    exact ⟨hmem, l, hl.1, hc.1, hc.2, hid.symm⟩
  · rintro ⟨hmem, l, hl, hsrc, hnorm, hdst⟩
    refine ⟨l, List.mem_filter.mpr ⟨hl, by simp [hsrc, hnorm]⟩, ?_⟩
    rw [lookupEntry_eq_some hw]
    exact ⟨hmem, hdst.symm⟩

theorem mem_selectDistinctGroupProducers_iff {st : Store} (hw : st.WF) {i : Nat}
    {t : TupEntry} :
    t ∈ selectDistinctGroupProducers st i ↔
      t ∈ st.entries ∧ ∃ l ∈ st.links, l.dst = i ∧ l.grp = true ∧ l.src = t.id := by
  unfold selectDistinctGroupProducers
  rw [List.mem_filterMap]
  constructor
  · rintro ⟨j, hj, hlook⟩
    rw [List.mem_dedup, List.mem_map] at hj
    rcases hj with ⟨l, hl, hsrc⟩
    rw [List.mem_filter] at hl
    rcases lookupEntry_mem hlook with ⟨hmem, hid⟩
    have hc := hl.2
    simp only [Bool.and_eq_true, beq_iff_eq] at hc
    exact ⟨hmem, l, hl.1, hc.1, hc.2, by rw [hsrc, hid]⟩
  · rintro ⟨hmem, l, hl, hdst, hgrp, hsrc⟩
    refine ⟨t.id, ?_, (lookupEntry_eq_some hw).mpr ⟨hmem, rfl⟩⟩
    rw [List.mem_dedup, List.mem_map]
    exact ⟨l, List.mem_filter.mpr ⟨hl, by simp [hdst, hgrp]⟩, hsrc⟩

theorem mem_selectNodeByFlagList_iff {st : Store} (hw : st.WF) {fl : List Nat}
    {t : TupEntry} :
    t ∈ selectNodeByFlagList st fl ↔ t ∈ st.entries ∧ t.id ∈ fl := by
  unfold selectNodeByFlagList
  rw [List.mem_filterMap]
  constructor
  · rintro ⟨j, hj, hlook⟩
    rcases lookupEntry_mem hlook with ⟨hmem, hid⟩
    rw [hid]
    exact ⟨hmem, hj⟩
  · rintro ⟨hmem, hid⟩
    exact ⟨t.id, hid, (lookupEntry_eq_some hw).mpr ⟨hmem, rfl⟩⟩

/-! ### The move of cur from plist to node_list -/

theorem eraseP_append_of {α : Type} (p : α → Bool) (pre rest : List α) (a : α)
    (hpre : ∀ u ∈ pre, p u = false) (ha : p a = true) :
    (pre ++ a :: rest).eraseP p = pre ++ rest := by
  induction pre with
  | nil =>
      simp only [List.nil_append, List.eraseP_cons, ha]
      rfl
  | cons u pre' ih =>
      have hu := hpre u (List.mem_cons_self u pre')
      simp only [List.cons_append, List.eraseP_cons, hu]
      rw [ih (fun v hv => hpre v (List.mem_cons_of_mem u hv))]
      rfl

theorem moveCur_spec {st : Store} {g : GGraph} {cur : TupEntry}
    {pre rest : List TupEntry}
    (hG : GWF st g) (hplist : g.plist = pre ++ cur :: rest) :
    (moveCur g cur).plist = pre ++ rest ∧
    (moveCur g cur).nodes.Perm g.nodes ∧
    (moveCur g cur).edges = g.edges ∧
    (moveCur g cur).nodeList = cur :: g.nodeList := by
  have hpre_ne : ∀ u ∈ pre, u.id ≠ cur.id := by
    have hnodup := hG.nodup
    unfold nodeIds GGraph.nodes at hnodup
    rw [hplist, List.map_append, List.map_append, List.map_cons] at hnodup
    have hright := hnodup.of_append_right
    have hdisj := List.disjoint_of_nodup_append hright
    intro u hu hid
    refine hdisj (List.mem_map.mpr ⟨u, hu, rfl⟩) ?_
    rw [hid]
    exact List.mem_cons_self _ _
  have hplist' : (moveCur g cur).plist = pre ++ rest := by
    unfold moveCur
    simp only [hplist]
    refine eraseP_append_of _ pre rest cur ?_ (by simp)
    intro u hu
    simpa using hpre_ne u hu
  refine ⟨hplist', ?_, rfl, rfl⟩
  show ((cur :: g.nodeList) ++ (moveCur g cur).plist).Perm (g.nodeList ++ g.plist)
  rw [hplist', hplist]
  have h1 : ((g.nodeList ++ pre) ++ cur :: rest).Perm
      (cur :: ((g.nodeList ++ pre) ++ rest)) := List.perm_middle
  have h2 : (cur :: g.nodeList) ++ (pre ++ rest) =
      cur :: ((g.nodeList ++ pre) ++ rest) := by
    simp [List.append_assoc]
  have h3 : g.nodeList ++ (pre ++ cur :: rest) = (g.nodeList ++ pre) ++ cur :: rest := by
    rw [List.append_assoc]
  rw [h2, h3]
  exact h1.symm

/-! ### Per-phase facts about one expansion step -/

theorem nodeIds_mono {g g' : GGraph} (h : ∀ u ∈ g.nodes, u ∈ g'.nodes) :
    ∀ i ∈ nodeIds g, i ∈ nodeIds g' := by
  intro i hi
  rcases mem_nodeIds.mp hi with ⟨t, ht, hid⟩
  exact mem_nodeIds.mpr ⟨t, h t ht, hid⟩

/-- What processing a node guarantees once it has been moved to
    node_list: its filtered link targets are in the graph with their
    edges, a group's distinct producers are in the graph with their
    edges, and — when the node is not named tup.config — its filtered
    directory children are in the graph. -/
def ClosedAt (o : GraphOpts) (st : Store) (g : GGraph) (n : TupEntry) : Prop :=
  (∀ t ∈ selectNodeByLink st n.id, passFilter o st true t = true →
     t.id ∈ nodeIds g ∧ (n.id, t.id) ∈ g.edges) ∧
  (n.type = TupNodeType.group →
     ∀ t ∈ selectDistinctGroupProducers st n.id,
       t.id ∈ nodeIds g ∧ (n.id, t.id) ∈ g.edges) ∧
  (n.name ≠ TUP_CONFIG →
     ∀ t ∈ selectNodeDir st n.id, passFilter o st false t = true → t.id ∈ nodeIds g)

theorem ClosedAt_mono {o : GraphOpts} {st : Store} {g g' : GGraph} {n : TupEntry}
    (hn : ∀ u ∈ g.nodes, u ∈ g'.nodes) (he : ∀ e ∈ g.edges, e ∈ g'.edges)
    (h : ClosedAt o st g n) : ClosedAt o st g' n := by
  obtain ⟨h1, h2, h3⟩ := h
  refine ⟨?_, ?_, ?_⟩
  · intro t ht hp
    exact ⟨nodeIds_mono hn _ (h1 t ht hp).1, he _ (h1 t ht hp).2⟩
  · intro hg t ht
    exact ⟨nodeIds_mono hn _ (h2 hg t ht).1, he _ (h2 hg t ht).2⟩
  · intro hc t ht hp
    exact nodeIds_mono hn _ (h3 hc t ht hp)

theorem linkPhase_nodeList (o : GraphOpts) (st : Store) (g : GGraph) (cur : TupEntry) :
    (linkPhase o st g cur).nodeList = g.nodeList :=
  foldl_nodeList_eq (fun g t => graph_cb_nodeList o st _ g t) _ g

theorem linkPhase_plist (o : GraphOpts) (st : Store) (g : GGraph) (cur : TupEntry) :
    ∃ pre, (linkPhase o st g cur).plist = pre ++ g.plist :=
  (foldl_plist_extend (fun g t => graph_cb_plist_cases o st _ g t) _ g).imp
    (fun _ h => h.1)

theorem linkPhase_GWF {o : GraphOpts} {st : Store} {g : GGraph} {cur : TupEntry}
    (hG : GWF st g) : GWF st (linkPhase o st g cur) :=
  foldl_GWF (fun _ _ ht h => GWF_graph_cb ht h) _ g
    (fun _ hu => mem_selectNodeByLink_sub hu) hG

theorem linkPhase_phiG {o : GraphOpts} {st : Store} (g : GGraph) (cur : TupEntry) :
    phiG st (linkPhase o st g cur) ≤ phiG st g :=
  foldl_phiG (fun _ _ ht => phiG_graph_cb ht) _ g
    (fun _ hu => mem_selectNodeByLink_sub hu)

theorem linkPhase_nodes_mono {o : GraphOpts} {st : Store} {g : GGraph} {cur : TupEntry} :
    ∀ u ∈ g.nodes, u ∈ (linkPhase o st g cur).nodes :=
  foldl_nodes_mono (fun _ _ _ hu => graph_cb_nodes_mono hu) _ g

theorem linkPhase_edges_mono {o : GraphOpts} {st : Store} {g : GGraph} {cur : TupEntry} :
    ∀ e ∈ g.edges, e ∈ (linkPhase o st g cur).edges :=
  foldl_edges_mono (fun _ _ _ he => graph_cb_edges_mono he) _ g

theorem linkPhase_nodes_upper {o : GraphOpts} {st : Store} {g : GGraph} {cur : TupEntry} :
    ∀ u ∈ (linkPhase o st g cur).nodes,
      u ∈ g.nodes ∨
        (u ∈ selectNodeByLink st cur.id ∧ passFilter o st true u = true) := by
  intro u hu
  rcases foldl_nodes_upper (fun _ t u h => graph_cb_nodes_upper h) _ g u hu with
    h | ⟨t, ht, heq, hp⟩
  · exact Or.inl h
  · subst heq
    exact Or.inr ⟨ht, hp⟩

theorem linkPhase_edges_upper {o : GraphOpts} {st : Store} {g : GGraph} {cur : TupEntry} :
    ∀ e ∈ (linkPhase o st g cur).edges,
      e ∈ g.edges ∨
        ∃ t, t ∈ selectNodeByLink st cur.id ∧ passFilter o st true t = true ∧
          e = (cur.id, t.id) := by
  intro e he
  have hup : ∀ (g' : GGraph) (t : TupEntry), ∀ e' ∈ (graph_cb o st (some cur.id) g' t).edges,
      e' ∈ g'.edges ∨ (e' = (cur.id, t.id) ∧ passFilter o st true t = true) := by
    intro g' t e' he'
    rcases graph_cb_edges_upper he' with h | ⟨c, hc, heq, hp⟩
    · exact Or.inl h
    · rcases Option.some.inj hc with rfl
      exact Or.inr ⟨heq, hp⟩
  rcases foldl_edges_upper hup _ g e he with h | ⟨t, ht, heq, hp⟩
  · exact Or.inl h
  · exact Or.inr ⟨t, ht, hp, heq⟩

theorem linkPhase_ensures {o : GraphOpts} {st : Store} {g : GGraph} {cur : TupEntry} :
    ∀ t ∈ selectNodeByLink st cur.id, passFilter o st true t = true →
      t.id ∈ nodeIds (linkPhase o st g cur) ∧
        (cur.id, t.id) ∈ (linkPhase o st g cur).edges := by
  unfold linkPhase
  refine foldl_ensures
    (R := fun t g' => t.id ∈ nodeIds g' ∧ (cur.id, t.id) ∈ g'.edges)
    (q := fun t => passFilter o st true t = true) ?_ ?_ _ g
  · intro g' t hc
    rw [graph_cb_of_pass (u := some cur.id) hc]
    constructor
    · show t.id ∈ nodeIds (addEdgeTo (some cur.id) (insertNode g' t) t)
      unfold nodeIds
      rw [addEdgeTo_nodes]
      exact id_mem_insertNode g' t
    · exact mem_edges_addEdgeTo.mpr (Or.inr ⟨cur.id, rfl, rfl⟩)
  · intro g' t u hu
    exact ⟨nodeIds_mono (fun _ h => graph_cb_nodes_mono h) _ hu.1,
      graph_cb_edges_mono hu.2⟩

theorem groupPhase_nodeList (st : Store) (g : GGraph) (cur : TupEntry) :
    (groupPhase st g cur).nodeList = g.nodeList := by
  unfold groupPhase
  split
  · exact foldl_nodeList_eq (fun g t => group_cb_nodeList g cur.id t) _ g
  · rfl

theorem groupPhase_plist (st : Store) (g : GGraph) (cur : TupEntry) :
    ∃ pre, (groupPhase st g cur).plist = pre ++ g.plist := by
  unfold groupPhase
  split
  · exact (foldl_plist_extend (fun g t => group_cb_plist_cases g cur.id t) _ g).imp
      (fun _ h => h.1)
  · exact ⟨[], rfl⟩

theorem groupPhase_GWF {st : Store} {g : GGraph} {cur : TupEntry} (hG : GWF st g) :
    GWF st (groupPhase st g cur) := by
  unfold groupPhase
  split
  · exact foldl_GWF (fun _ _ ht h => GWF_group_cb ht h) _ g
      (fun _ hu => mem_selectDistinctGroupProducers_sub hu) hG
  · exact hG

theorem groupPhase_phiG {st : Store} (g : GGraph) (cur : TupEntry) :
    phiG st (groupPhase st g cur) ≤ phiG st g := by
  unfold groupPhase
  split
  · exact foldl_phiG (fun _ _ ht => phiG_group_cb ht) _ g
      (fun _ hu => mem_selectDistinctGroupProducers_sub hu)
  · exact le_refl _

theorem groupPhase_nodes_mono {st : Store} {g : GGraph} {cur : TupEntry} :
    ∀ u ∈ g.nodes, u ∈ (groupPhase st g cur).nodes := by
  unfold groupPhase
  split
  · exact foldl_nodes_mono (fun _ _ _ hu => group_cb_nodes_mono hu) _ g
  · intro u hu; exact hu

theorem groupPhase_edges_mono {st : Store} {g : GGraph} {cur : TupEntry} :
    ∀ e ∈ g.edges, e ∈ (groupPhase st g cur).edges := by
  unfold groupPhase
  split
  · exact foldl_edges_mono (fun _ _ _ he => group_cb_edges_mono he) _ g
  · intro e he; exact he

theorem groupPhase_nodes_upper {st : Store} {g : GGraph} {cur : TupEntry} :
    ∀ u ∈ (groupPhase st g cur).nodes,
      u ∈ g.nodes ∨
        (cur.type = TupNodeType.group ∧ u ∈ selectDistinctGroupProducers st cur.id) := by
  unfold groupPhase
  split
  · next hty =>
      intro u hu
      have hup : ∀ (g' : GGraph) (t : TupEntry),
          ∀ u' ∈ (build_graph_group_cb g' cur.id t).nodes,
            u' ∈ g'.nodes ∨ (u' = t ∧ True) := by
        intro g' t u' hu'
        rcases group_cb_nodes_upper hu' with h | h
        · exact Or.inl h
        · exact Or.inr ⟨h, trivial⟩
      rcases foldl_nodes_upper hup _ g u hu with h | ⟨t, ht, heq, _⟩
      · exact Or.inl h
      · subst heq
        exact Or.inr ⟨by simpa using hty, ht⟩
  · intro u hu; exact Or.inl hu

theorem groupPhase_edges_upper {st : Store} {g : GGraph} {cur : TupEntry} :
    ∀ e ∈ (groupPhase st g cur).edges,
      e ∈ g.edges ∨
        (cur.type = TupNodeType.group ∧
          ∃ t ∈ selectDistinctGroupProducers st cur.id, e = (cur.id, t.id)) := by
  unfold groupPhase
  split
  · next hty =>
      intro e he
      have hup : ∀ (g' : GGraph) (t : TupEntry),
          ∀ e' ∈ (build_graph_group_cb g' cur.id t).edges,
            e' ∈ g'.edges ∨ (e' = (cur.id, t.id) ∧ True) := by
        intro g' t e' he'
        rcases group_cb_edges_upper he' with h | h
        · exact Or.inl h
        · exact Or.inr ⟨h, trivial⟩
      rcases foldl_edges_upper hup _ g e he with h | ⟨t, ht, heq, _⟩
      · exact Or.inl h
      · exact Or.inr ⟨by simpa using hty, t, ht, heq⟩
  · intro e he; exact Or.inl he

theorem groupPhase_ensures {st : Store} {g : GGraph} {cur : TupEntry}
    (hty : cur.type = TupNodeType.group) :
    ∀ t ∈ selectDistinctGroupProducers st cur.id,
      t.id ∈ nodeIds (groupPhase st g cur) ∧
        (cur.id, t.id) ∈ (groupPhase st g cur).edges := by
  unfold groupPhase
  rw [if_pos (by simpa using hty)]
  intro t ht
  refine foldl_ensures
    (R := fun t g' => t.id ∈ nodeIds g' ∧ (cur.id, t.id) ∈ g'.edges)
    (q := fun _ => True) ?_ ?_ _ g t ht trivial
  · intro g' t _
    constructor
    · show t.id ∈ nodeIds (addEdgeTo (some cur.id) (insertNode g' t) t)
      unfold nodeIds
      rw [addEdgeTo_nodes]
      exact id_mem_insertNode g' t
    · exact mem_edges_addEdgeTo.mpr (Or.inr ⟨cur.id, rfl, rfl⟩)
  · intro g' t u hu
    exact ⟨nodeIds_mono (fun _ h => group_cb_nodes_mono h) _ hu.1,
      group_cb_edges_mono hu.2⟩

theorem graph_cb_none_edges (o : GraphOpts) (st : Store) (g : GGraph) (t : TupEntry) :
    (graph_cb o st none g t).edges = g.edges := by
  cases hp : passFilter o st (Option.isSome (none : Option Nat)) t
  · rw [graph_cb_of_fail hp]
  · rw [graph_cb_of_pass hp]
    show (insertNode g t).edges = g.edges
    exact insertNode_edges g t

theorem dirPhase_nodeList (o : GraphOpts) (st : Store) (g : GGraph) (cur : TupEntry) :
    (dirPhase o st g cur).nodeList = g.nodeList := by
  unfold dirPhase
  split
  · exact foldl_nodeList_eq (fun g t => graph_cb_nodeList o st _ g t) _ g
  · rfl

theorem dirPhase_GWF {o : GraphOpts} {st : Store} {g : GGraph} {cur : TupEntry}
    (hG : GWF st g) : GWF st (dirPhase o st g cur) := by
  unfold dirPhase
  split
  · exact foldl_GWF (fun _ _ ht h => GWF_graph_cb ht h) _ g
      (fun _ hu => mem_selectNodeDir_sub hu) hG
  · exact hG

theorem dirPhase_phiG {o : GraphOpts} {st : Store} (g : GGraph) (cur : TupEntry) :
    phiG st (dirPhase o st g cur) ≤ phiG st g := by
  unfold dirPhase
  split
  · exact foldl_phiG (fun _ _ ht => phiG_graph_cb ht) _ g
      (fun _ hu => mem_selectNodeDir_sub hu)
  · exact le_refl _

theorem dirPhase_nodes_mono {o : GraphOpts} {st : Store} {g : GGraph} {cur : TupEntry} :
    ∀ u ∈ g.nodes, u ∈ (dirPhase o st g cur).nodes := by
  unfold dirPhase
  split
  · exact foldl_nodes_mono (fun _ _ _ hu => graph_cb_nodes_mono hu) _ g
  · intro u hu; exact hu

theorem dirPhase_edges_eq (o : GraphOpts) (st : Store) (g : GGraph) (cur : TupEntry) :
    (dirPhase o st g cur).edges = g.edges := by
  unfold dirPhase
  split
  · have : ∀ (ts : List TupEntry) (g' : GGraph),
        (ts.foldl (graph_cb o st none) g').edges = g'.edges := by
      intro ts
      induction ts with
      | nil => intro g'; rfl
      | cons t rest ih =>
          intro g'
          rw [List.foldl_cons, ih, graph_cb_none_edges]
    exact this _ g
  · rfl

theorem dirPhase_nodes_upper {o : GraphOpts} {st : Store} {g : GGraph} {cur : TupEntry} :
    ∀ u ∈ (dirPhase o st g cur).nodes,
      u ∈ g.nodes ∨
        (cur.name ≠ TUP_CONFIG ∧ u ∈ selectNodeDir st cur.id ∧
          passFilter o st false u = true) := by
  unfold dirPhase
  split
  · next hname =>
      intro u hu
      rcases foldl_nodes_upper (fun _ t u h => graph_cb_nodes_upper h) _ g u hu with
        h | ⟨t, ht, heq, hp⟩
      · exact Or.inl h
      · subst heq
        exact Or.inr ⟨hname, ht, hp⟩
  · intro u hu; exact Or.inl hu

theorem dirPhase_ensures {o : GraphOpts} {st : Store} {g : GGraph} {cur : TupEntry}
    (hname : cur.name ≠ TUP_CONFIG) :
    ∀ t ∈ selectNodeDir st cur.id, passFilter o st false t = true →
      t.id ∈ nodeIds (dirPhase o st g cur) := by
  unfold dirPhase
  rw [if_pos hname]
  refine foldl_ensures (R := fun t g' => t.id ∈ nodeIds g') ?_ ?_ _ g
  · intro g' t hc
    rw [graph_cb_of_pass (u := (none : Option Nat)) hc]
    show t.id ∈ nodeIds (insertNode g' t)
    exact id_mem_insertNode g' t
  · intro g' t u hu
    exact nodeIds_mono (fun _ h => graph_cb_nodes_mono h) _ hu

/-! ### The combined facts about one expansion step -/

theorem graphStep_spec {o : GraphOpts} {st : Store} {g : GGraph} {cur : TupEntry}
    {rest0 : List TupEntry} (hG : GWF st g) (hplist : g.plist = cur :: rest0) :
    GWF st (graphStep o st g cur) ∧
    (graphStep o st g cur).nodeList = cur :: g.nodeList ∧
    phiG st (graphStep o st g cur) + 1 ≤ phiG st g ∧
    (∀ u ∈ g.nodes, u ∈ (graphStep o st g cur).nodes) ∧
    (∀ e ∈ g.edges, e ∈ (graphStep o st g cur).edges) ∧
    (∀ u ∈ (graphStep o st g cur).nodes, u ∈ g.nodes ∨
       (u ∈ selectNodeByLink st cur.id ∧ passFilter o st true u = true) ∨
       (cur.type = TupNodeType.group ∧ u ∈ selectDistinctGroupProducers st cur.id) ∨
       (cur.name ≠ TUP_CONFIG ∧ u ∈ selectNodeDir st cur.id ∧
         passFilter o st false u = true)) ∧
    (∀ e ∈ (graphStep o st g cur).edges, e ∈ g.edges ∨
       (∃ t, t ∈ selectNodeByLink st cur.id ∧ passFilter o st true t = true ∧
         e = (cur.id, t.id)) ∨
       (cur.type = TupNodeType.group ∧
         ∃ t ∈ selectDistinctGroupProducers st cur.id, e = (cur.id, t.id))) ∧
    ClosedAt o st (graphStep o st g cur) cur := by
  set g1 := linkPhase o st g cur with hg1
  set g2 := groupPhase st g1 cur with hg2
  set g3 := moveCur g2 cur with hg3
  have hstep : graphStep o st g cur = dirPhase o st g3 cur := rfl
  have hG1 : GWF st g1 := linkPhase_GWF hG
  have hG2 : GWF st g2 := groupPhase_GWF hG1
  obtain ⟨pre1, hp1⟩ := linkPhase_plist o st g cur
  obtain ⟨pre2, hp2⟩ := groupPhase_plist st g1 cur
  have hplist2 : g2.plist = (pre2 ++ pre1) ++ cur :: rest0 := by
    rw [hg2, hp2, hg1, hp1, hplist, List.append_assoc]
  obtain ⟨hm_pl, hm_perm, hm_edges, hm_nl⟩ := moveCur_spec hG2 hplist2
  have hG3 : GWF st g3 := GWF_perm_nodes hm_perm hG2
  have hGout : GWF st (graphStep o st g cur) := by
    rw [hstep]
    exact dirPhase_GWF hG3
  have hnl : (graphStep o st g cur).nodeList = cur :: g.nodeList := by
    rw [hstep, dirPhase_nodeList, hm_nl, hg2, groupPhase_nodeList, hg1,
      linkPhase_nodeList]
  have hids3 : nodeIdsF g3 = nodeIdsF g2 := by
    unfold nodeIdsF
    ext i
    rw [List.mem_toFinset, List.mem_toFinset]
    exact (hm_perm.map TupEntry.id).mem_iff
  have hphi3 : phiG st g3 + 1 = phiG st g2 := by
    unfold phiG
    rw [hids3, hm_pl, hplist2]
    simp only [List.length_append, List.length_cons]
    omega
  have hphi : phiG st (graphStep o st g cur) + 1 ≤ phiG st g := by
    have h1 := @linkPhase_phiG o st g cur
    have h2 := @groupPhase_phiG st g1 cur
    have h4 := @dirPhase_phiG o st g3 cur
    rw [hstep]
    rw [← hg1] at h1
    rw [← hg2] at h2
    omega
  have hmonoN : ∀ u ∈ g.nodes, u ∈ (graphStep o st g cur).nodes := by
    intro u hu
    rw [hstep]
    exact dirPhase_nodes_mono u
      (hm_perm.mem_iff.mpr (groupPhase_nodes_mono u (linkPhase_nodes_mono u hu)))
  have hmonoE : ∀ e ∈ g.edges, e ∈ (graphStep o st g cur).edges := by
    intro e he
    rw [hstep, dirPhase_edges_eq, hm_edges]
    exact groupPhase_edges_mono e (linkPhase_edges_mono e he)
  have hupN : ∀ u ∈ (graphStep o st g cur).nodes, u ∈ g.nodes ∨
      (u ∈ selectNodeByLink st cur.id ∧ passFilter o st true u = true) ∨
      (cur.type = TupNodeType.group ∧ u ∈ selectDistinctGroupProducers st cur.id) ∨
      (cur.name ≠ TUP_CONFIG ∧ u ∈ selectNodeDir st cur.id ∧
        passFilter o st false u = true) := by
    intro u hu
    rw [hstep] at hu
    rcases dirPhase_nodes_upper u hu with hu3 | h
    · have hu2 : u ∈ g2.nodes := hm_perm.mem_iff.mp hu3
      rcases groupPhase_nodes_upper u hu2 with hu1 | hgrp
      · rcases linkPhase_nodes_upper u hu1 with h | h
        · exact Or.inl h
        · exact Or.inr (Or.inl h)
      · exact Or.inr (Or.inr (Or.inl hgrp))
    · exact Or.inr (Or.inr (Or.inr h))
  have hupE : ∀ e ∈ (graphStep o st g cur).edges, e ∈ g.edges ∨
      (∃ t, t ∈ selectNodeByLink st cur.id ∧ passFilter o st true t = true ∧
        e = (cur.id, t.id)) ∨
      (cur.type = TupNodeType.group ∧
        ∃ t ∈ selectDistinctGroupProducers st cur.id, e = (cur.id, t.id)) := by
    intro e he
    rw [hstep, dirPhase_edges_eq, hm_edges] at he
    rcases groupPhase_edges_upper e he with he1 | h
    · rcases linkPhase_edges_upper e he1 with h | h
      · exact Or.inl h
      · exact Or.inr (Or.inl h)
    · exact Or.inr (Or.inr h)
  have hclosed : ClosedAt o st (graphStep o st g cur) cur := by
    have htrans23 : ∀ i, i ∈ nodeIds g2 → i ∈ nodeIds g3 := by
      intro i hi
      unfold nodeIds at hi ⊢
      exact ((hm_perm.map TupEntry.id).mem_iff).mpr hi
    have htrans3out : ∀ i, i ∈ nodeIds g3 → i ∈ nodeIds (graphStep o st g cur) := by
      intro i hi
      rw [hstep]
      exact nodeIds_mono (fun u hu => dirPhase_nodes_mono u hu) i hi
    have hedges3out : ∀ e, e ∈ g3.edges → e ∈ (graphStep o st g cur).edges := by
      intro e he
      rw [hstep, dirPhase_edges_eq]
      exact he
    refine ⟨?_, ?_, ?_⟩
    · intro t ht hp
      have h1 := @linkPhase_ensures o st g cur t ht hp
      have h2 : t.id ∈ nodeIds g2 ∧ (cur.id, t.id) ∈ g2.edges := by
        constructor
        · exact nodeIds_mono (fun u hu => groupPhase_nodes_mono u hu) _ h1.1
        · exact groupPhase_edges_mono _ h1.2
      refine ⟨htrans3out _ (htrans23 _ h2.1), ?_⟩
      apply hedges3out
      rw [hm_edges]
      exact h2.2
    · intro hty t ht
      have h2 := @groupPhase_ensures st g1 cur hty t ht
      refine ⟨htrans3out _ (htrans23 _ h2.1), ?_⟩
      apply hedges3out
      rw [hm_edges]
      exact h2.2
    · intro hname t ht hp
      rw [hstep]
      exact @dirPhase_ensures o st g3 cur hname t ht hp
  exact ⟨hGout, hnl, hphi, hmonoN, hmonoE, hupN, hupE, hclosed⟩

/-! ### The drained expansion loop -/

theorem graphExpand_succ (o : GraphOpts) (st : Store) (fuel : Nat) (g : GGraph) :
    graphExpand o st (fuel + 1) g =
      match g.plist with
      | [] => g
      | cur :: _ => graphExpand o st fuel (graphStep o st g cur) := rfl

/-- Invariant of the loop: every node already moved to node_list has been
    fully processed. -/
def Closed (o : GraphOpts) (st : Store) (g : GGraph) : Prop :=
  ∀ n ∈ g.nodeList, ClosedAt o st g n

theorem graphExpand_spec (o : GraphOpts) (st : Store) :
    ∀ (fuel : Nat) (g : GGraph), GWF st g → Closed o st g → phiG st g ≤ fuel →
      GWF st (graphExpand o st fuel g) ∧
      Closed o st (graphExpand o st fuel g) ∧
      (graphExpand o st fuel g).plist = [] ∧
      (∀ u ∈ g.nodes, u ∈ (graphExpand o st fuel g).nodes) ∧
      (∀ e ∈ g.edges, e ∈ (graphExpand o st fuel g).edges) := by
  intro fuel
  induction fuel with
  | zero =>
      intro g hG hC hphi
      have hempty : g.plist = [] := by
        have hz := Nat.le_zero.mp hphi
        unfold phiG at hz
        have hlen : g.plist.length = 0 := by omega
        exact List.length_eq_zero.mp hlen
      exact ⟨hG, hC, hempty, fun u hu => hu, fun e he => he⟩
  | succ fuel ih =>
      intro g hG hC hphi
      match hpl : g.plist with
      | [] =>
          have heq : graphExpand o st (fuel + 1) g = g := by
            rw [graphExpand_succ, hpl]
          rw [heq]
          exact ⟨hG, hC, hpl, fun u hu => hu, fun e he => he⟩
      | cur :: rest0 =>
          have heq : graphExpand o st (fuel + 1) g =
              graphExpand o st fuel (graphStep o st g cur) := by
            rw [graphExpand_succ, hpl]
          obtain ⟨hG', hnl', hphi', hmonoN, hmonoE, _, _, hclosedCur⟩ :=
            graphStep_spec hG hpl
          have hC' : Closed o st (graphStep o st g cur) := by
            intro n hn
            rw [hnl'] at hn
            rcases List.mem_cons.mp hn with h | h
            · rw [h]
              exact hclosedCur
            · exact ClosedAt_mono hmonoN hmonoE (hC n h)
          have hphi'' : phiG st (graphStep o st g cur) ≤ fuel := by omega
          obtain ⟨a, b, c, d, e⟩ := ih (graphStep o st g cur) hG' hC' hphi''
          rw [heq]
          exact ⟨a, b, c, fun u hu => d u (hmonoN u hu),
            fun e' he' => e e' (hmonoE e' he')⟩

theorem graphExpand_sound (o : GraphOpts) (st : Store) (R : TupEntry → Prop)
    (ES : Nat × Nat → Prop)
    (hlink : ∀ n t, R n → t ∈ selectNodeByLink st n.id →
      passFilter o st true t = true → R t)
    (hgrp : ∀ n t, R n → n.type = TupNodeType.group →
      t ∈ selectDistinctGroupProducers st n.id → R t)
    (hchild : ∀ n t, R n → n.name ≠ TUP_CONFIG → t ∈ selectNodeDir st n.id →
      passFilter o st false t = true → R t)
    (hESlink : ∀ n t, R n → t ∈ selectNodeByLink st n.id →
      passFilter o st true t = true → ES (n.id, t.id))
    (hESgrp : ∀ n t, R n → n.type = TupNodeType.group →
      t ∈ selectDistinctGroupProducers st n.id → ES (n.id, t.id)) :
    ∀ (fuel : Nat) (g : GGraph), GWF st g →
      (∀ u ∈ g.nodes, R u) → (∀ e ∈ g.edges, ES e) →
      (∀ u ∈ (graphExpand o st fuel g).nodes, R u) ∧
      (∀ e ∈ (graphExpand o st fuel g).edges, ES e) := by
  intro fuel
  induction fuel with
  | zero => intro g _ hN hE; exact ⟨hN, hE⟩
  | succ fuel ih =>
      intro g hG hN hE
      match hpl : g.plist with
      | [] =>
          have heq : graphExpand o st (fuel + 1) g = g := by
            rw [graphExpand_succ, hpl]
          rw [heq]
          exact ⟨hN, hE⟩
      | cur :: rest0 =>
          have heq : graphExpand o st (fuel + 1) g =
              graphExpand o st fuel (graphStep o st g cur) := by
            rw [graphExpand_succ, hpl]
          obtain ⟨hG', _, _, _, _, hupN, hupE, _⟩ := graphStep_spec hG hpl
          have hcurmem : cur ∈ g.nodes := by
            show cur ∈ g.nodeList ++ g.plist
            rw [hpl]
            exact List.mem_append.mpr (Or.inr (List.mem_cons_self _ _))
          have hcur : R cur := hN cur hcurmem
          have hN' : ∀ u ∈ (graphStep o st g cur).nodes, R u := by
            intro u hu
            rcases hupN u hu with h | ⟨ht, hp⟩ | ⟨hty, ht⟩ | ⟨hn, ht, hp⟩
            · exact hN u h
            · exact hlink cur u hcur ht hp
            · exact hgrp cur u hcur hty ht
            · exact hchild cur u hcur hn ht hp
          have hE' : ∀ e ∈ (graphStep o st g cur).edges, ES e := by
            intro e he
            rcases hupE e he with h | ⟨t, ht, hp, heq'⟩ | ⟨hty, t, ht, heq'⟩
            · exact hE e h
            · rw [heq']
              exact hESlink cur t hcur ht hp
            · rw [heq']
              exact hESgrp cur t hcur hty ht
          rw [heq]
          exact ih (graphStep o st g cur) hG' hN' hE'

/-! ### Content-level characterisation of the constructed graph -/

/-- Reachability at the level of store content: the least set of entries
    containing the seeds and closed under the three expansion rules of
    the loop (filtered link targets, distinct group producers, filtered
    directory children of nodes not named tup.config). -/
inductive Reach (o : GraphOpts) (st : Store) (seeds : List TupEntry) :
    TupEntry → Prop where
  | seed {t} : t ∈ seeds → Reach o st seeds t
  | link {n t} : Reach o st seeds n → t ∈ selectNodeByLink st n.id →
      passFilter o st true t = true → Reach o st seeds t
  | grp {n t} : Reach o st seeds n → n.type = TupNodeType.group →
      t ∈ selectDistinctGroupProducers st n.id → Reach o st seeds t
  | child {n t} : Reach o st seeds n → n.name ≠ TUP_CONFIG →
      t ∈ selectNodeDir st n.id → passFilter o st false t = true →
      Reach o st seeds t

/-- The edges the expansion loop produces, at the level of store
    content. -/
def EdgeSpec (o : GraphOpts) (st : Store) (seeds : List TupEntry)
    (e : Nat × Nat) : Prop :=
  ∃ n, Reach o st seeds n ∧ e.1 = n.id ∧
    ((∃ t, t ∈ selectNodeByLink st n.id ∧ passFilter o st true t = true ∧
        e.2 = t.id) ∨
     (n.type = TupNodeType.group ∧
       ∃ t ∈ selectDistinctGroupProducers st n.id, e.2 = t.id))

theorem Reach_mem_entries {o : GraphOpts} {st : Store} {seeds : List TupEntry}
    {t : TupEntry} (hseeds : ∀ u ∈ seeds, u ∈ st.entries)
    (h : Reach o st seeds t) : t ∈ st.entries := by
  induction h with
  | seed h => exact hseeds _ h
  | link _ ht _ _ => exact mem_selectNodeByLink_sub ht
  | grp _ _ ht _ => exact mem_selectDistinctGroupProducers_sub ht
  | child _ _ ht _ _ => exact mem_selectNodeDir_sub ht

theorem drained_complete {o : GraphOpts} {st : Store} {seeds : List TupEntry}
    {g : GGraph} (hw : st.WF) (hG : GWF st g) (hC : Closed o st g)
    (hpl : g.plist = [])
    (hseedsG : ∀ u ∈ seeds, u ∈ g.nodes) :
    (∀ t, Reach o st seeds t → t ∈ g.nodes) ∧
    (∀ e, EdgeSpec o st seeds e → e ∈ g.edges) := by
  have hnodes_eq : g.nodes = g.nodeList := by
    unfold GGraph.nodes
    rw [hpl, List.append_nil]
  have hid2val : ∀ i, i ∈ nodeIds g → ∀ t, t ∈ st.entries → t.id = i →
      t ∈ g.nodes := by
    intro i hi t htE htid
    rcases mem_nodeIds.mp hi with ⟨m, hm, hmid⟩
    have hmt : m = t :=
      List.inj_on_of_nodup_map hw (hG.sub m hm) htE (by rw [hmid, htid])
    rw [← hmt]
    exact hm
  have hmain : ∀ t, Reach o st seeds t → t ∈ g.nodes := by
    intro t h
    induction h with
    | seed h => exact hseedsG _ h
    | link hn ht hp ih =>
        have hcl := hC _ (by rw [← hnodes_eq]; exact ih)
        exact hid2val _ (hcl.1 _ ht hp).1 _ (mem_selectNodeByLink_sub ht) rfl
    | grp hn hty ht ih =>
        have hcl := hC _ (by rw [← hnodes_eq]; exact ih)
        exact hid2val _ (hcl.2.1 hty _ ht).1 _
          (mem_selectDistinctGroupProducers_sub ht) rfl
    | child hn hname ht hp ih =>
        have hcl := hC _ (by rw [← hnodes_eq]; exact ih)
        exact hid2val _ (hcl.2.2 hname _ ht hp) _ (mem_selectNodeDir_sub ht) rfl
  refine ⟨hmain, ?_⟩
  intro e he
  rcases he with ⟨n, hn, he1, hcase⟩
  have hcl := hC n (by rw [← hnodes_eq]; exact hmain n hn)
  rcases hcase with ⟨t, ht, hp, he2⟩ | ⟨hty, t, ht, he2⟩
  · have hedge := (hcl.1 t ht hp).2
    have : e = (n.id, t.id) := Prod.ext he1 he2
    rw [this]
    exact hedge
  · have hedge := (hcl.2.1 hty t ht).2
    have : e = (n.id, t.id) := Prod.ext he1 he2
    rw [this]
    exact hedge

/-! ### Invariance under reordering of the store's tables -/

/-- Two stores with the same content: the four tables agree as sets and
    the env_dt sentinel agrees. -/
def StoreEquiv (st1 st2 : Store) : Prop :=
  (∀ t, t ∈ st1.entries ↔ t ∈ st2.entries) ∧
  (∀ l, l ∈ st1.links ↔ l ∈ st2.links) ∧
  (∀ i, i ∈ st1.createList ↔ i ∈ st2.createList) ∧
  (∀ i, i ∈ st1.modifyList ↔ i ∈ st2.modifyList) ∧
  st1.envDt = st2.envDt

theorem passFilter_equiv {st1 st2 : Store} (henv : st1.envDt = st2.envDt)
    (o : GraphOpts) (b : Bool) (t : TupEntry) :
    passFilter o st1 b t = passFilter o st2 b t := by
  unfold passFilter
  rw [henv]

theorem selectNodeByLink_equiv {st1 st2 : Store} (hw1 : st1.WF) (hw2 : st2.WF)
    (he : StoreEquiv st1 st2) (i : Nat) (t : TupEntry) :
    t ∈ selectNodeByLink st1 i ↔ t ∈ selectNodeByLink st2 i := by
  rw [mem_selectNodeByLink_iff hw1, mem_selectNodeByLink_iff hw2]
  constructor
  · rintro ⟨hm, l, hl, h⟩
    exact ⟨(he.1 t).mp hm, l, (he.2.1 l).mp hl, h⟩
  · rintro ⟨hm, l, hl, h⟩
    exact ⟨(he.1 t).mpr hm, l, (he.2.1 l).mpr hl, h⟩

theorem selectNodeDir_equiv {st1 st2 : Store} (he : StoreEquiv st1 st2)
    (i : Nat) (t : TupEntry) :
    t ∈ selectNodeDir st1 i ↔ t ∈ selectNodeDir st2 i := by
  rw [mem_selectNodeDir_iff, mem_selectNodeDir_iff]
  constructor
  · rintro ⟨hm, h⟩
    exact ⟨(he.1 t).mp hm, h⟩
  · rintro ⟨hm, h⟩
    exact ⟨(he.1 t).mpr hm, h⟩

theorem selectDistinctGroupProducers_equiv {st1 st2 : Store} (hw1 : st1.WF)
    (hw2 : st2.WF) (he : StoreEquiv st1 st2) (i : Nat) (t : TupEntry) :
    t ∈ selectDistinctGroupProducers st1 i ↔
      t ∈ selectDistinctGroupProducers st2 i := by
  rw [mem_selectDistinctGroupProducers_iff hw1,
    mem_selectDistinctGroupProducers_iff hw2]
  constructor
  · rintro ⟨hm, l, hl, h⟩
    exact ⟨(he.1 t).mp hm, l, (he.2.1 l).mp hl, h⟩
  · rintro ⟨hm, l, hl, h⟩
    exact ⟨(he.1 t).mpr hm, l, (he.2.1 l).mpr hl, h⟩

theorem Reach_equiv {o : GraphOpts} {st1 st2 : Store} {seeds1 seeds2 : List TupEntry}
    (hw1 : st1.WF) (hw2 : st2.WF) (he : StoreEquiv st1 st2)
    (hs : ∀ u, u ∈ seeds1 ↔ u ∈ seeds2) :
    ∀ t, Reach o st1 seeds1 t → Reach o st2 seeds2 t := by
  intro t h
  induction h with
  | seed h => exact Reach.seed ((hs _).mp h)
  | link hn ht hp ih =>
      refine Reach.link ih ((selectNodeByLink_equiv hw1 hw2 he _ _).mp ht) ?_
      rw [← passFilter_equiv he.2.2.2.2]
      exact hp
  | grp hn hty ht ih =>
      exact Reach.grp ih hty ((selectDistinctGroupProducers_equiv hw1 hw2 he _ _).mp ht)
  | child hn hname ht hp ih =>
      refine Reach.child ih hname ((selectNodeDir_equiv he _ _).mp ht) ?_
      rw [← passFilter_equiv he.2.2.2.2]
      exact hp

theorem EdgeSpec_equiv {o : GraphOpts} {st1 st2 : Store} {seeds1 seeds2 : List TupEntry}
    (hw1 : st1.WF) (hw2 : st2.WF) (he : StoreEquiv st1 st2)
    (hs : ∀ u, u ∈ seeds1 ↔ u ∈ seeds2) :
    ∀ e, EdgeSpec o st1 seeds1 e → EdgeSpec o st2 seeds2 e := by
  rintro e ⟨n, hn, he1, hcase⟩
  refine ⟨n, Reach_equiv hw1 hw2 he hs n hn, he1, ?_⟩
  rcases hcase with ⟨t, ht, hp, he2⟩ | ⟨hty, t, ht, he2⟩
  · refine Or.inl ⟨t, (selectNodeByLink_equiv hw1 hw2 he _ _).mp ht, ?_, he2⟩
    rw [← passFilter_equiv he.2.2.2.2]
    exact hp
  · exact Or.inr ⟨hty, t, (selectDistinctGroupProducers_equiv hw1 hw2 he _ _).mp ht, he2⟩

/-! ### The seed phases -/

theorem mem_nodes_of_id {st : Store} {g : GGraph} (hw : st.WF) (hG : GWF st g)
    {t : TupEntry} (htE : t ∈ st.entries) (hid : t.id ∈ nodeIds g) : t ∈ g.nodes := by
  rcases mem_nodeIds.mp hid with ⟨m, hm, hmid⟩
  have hmt : m = t :=
    List.inj_on_of_nodup_map hw (hG.sub m hm) htE (by rw [hmid])
  rw [← hmt]
  exact hm

theorem mem_nodeIds_insertNode {g : GGraph} {t : TupEntry} {i : Nat} :
    i ∈ nodeIds (insertNode g t) ↔ i ∈ nodeIds g ∨ i = t.id := by
  constructor
  · intro h
    rcases mem_nodeIds.mp h with ⟨u, hu, hid⟩
    rcases mem_nodes_insertNode.mp hu with h' | ⟨_, h'⟩
    · exact Or.inl (mem_nodeIds.mpr ⟨u, h', hid⟩)
    · rw [h'] at hid
      exact Or.inr hid.symm
  · rintro (h | h)
    · exact nodeIds_mono (fun u hu => mem_nodes_insertNode_of hu) i h
    · rw [h]
      exact id_mem_insertNode g t

theorem foldl_cb_none_edges (o : GraphOpts) (st : Store) :
    ∀ (ts : List TupEntry) (g : GGraph),
      (ts.foldl (graph_cb o st none) g).edges = g.edges := by
  intro ts
  induction ts with
  | nil => intro g; rfl
  | cons t rest ih =>
      intro g
      rw [List.foldl_cons, ih, graph_cb_none_edges]

theorem flagFold_ensures {o : GraphOpts} {st : Store} (fl : List Nat) (g : GGraph) :
    ∀ t ∈ selectNodeByFlagList st fl, passFilter o st false t = true →
      t.id ∈ nodeIds ((selectNodeByFlagList st fl).foldl (graph_cb o st none) g) := by
  refine foldl_ensures (R := fun t g' => t.id ∈ nodeIds g')
    (q := fun t => passFilter o st false t = true) ?_ ?_ _ g
  · intro g' t hc
    rw [graph_cb_of_pass (u := (none : Option Nat)) hc]
    show t.id ∈ nodeIds (insertNode g' t)
    exact id_mem_insertNode g' t
  · intro g' t u hu
    exact nodeIds_mono (fun _ h => graph_cb_nodes_mono h) _ hu

theorem seedDefault_nodeList (o : GraphOpts) (st : Store) (g : GGraph) :
    (seedDefault o st g).nodeList = g.nodeList := by
  unfold seedDefault
  rw [foldl_nodeList_eq (fun g t => graph_cb_nodeList o st _ g t),
    foldl_nodeList_eq (fun g t => graph_cb_nodeList o st _ g t)]

theorem seedDefault_edges (o : GraphOpts) (st : Store) (g : GGraph) :
    (seedDefault o st g).edges = g.edges := by
  unfold seedDefault
  rw [foldl_cb_none_edges, foldl_cb_none_edges]

theorem seedDefault_GWF {o : GraphOpts} {st : Store} {g : GGraph} (hG : GWF st g) :
    GWF st (seedDefault o st g) := by
  unfold seedDefault
  refine foldl_GWF (fun _ _ ht h => GWF_graph_cb ht h) _ _
    (fun _ hu => mem_selectNodeByFlagList_sub hu) ?_
  exact foldl_GWF (fun _ _ ht h => GWF_graph_cb ht h) _ _
    (fun _ hu => mem_selectNodeByFlagList_sub hu) hG

theorem seedDefault_char {o : GraphOpts} {st : Store} {g : GGraph} (hw : st.WF)
    (hG : GWF st g) :
    ∀ t, t ∈ (seedDefault o st g).nodes ↔
      t ∈ g.nodes ∨
        (t ∈ st.entries ∧ (t.id ∈ st.createList ∨ t.id ∈ st.modifyList) ∧
          passFilter o st false t = true) := by
  intro t
  constructor
  · intro h
    unfold seedDefault at h
    rcases foldl_nodes_upper (fun _ t u h => graph_cb_nodes_upper h) _ _ t h with
      h | ⟨u, hu, heq, hp⟩
    · rcases foldl_nodes_upper (fun _ t u h => graph_cb_nodes_upper h) _ _ t h with
        h | ⟨u, hu, heq, hp⟩
      · exact Or.inl h
      · subst heq
        rcases (mem_selectNodeByFlagList_iff hw).mp hu with ⟨hE, hid⟩
        exact Or.inr ⟨hE, Or.inl hid, hp⟩
    · subst heq
      rcases (mem_selectNodeByFlagList_iff hw).mp hu with ⟨hE, hid⟩
      exact Or.inr ⟨hE, Or.inr hid, hp⟩
  · rintro (h | ⟨hE, hfl, hp⟩)
    · unfold seedDefault
      exact foldl_nodes_mono (fun _ _ _ h => graph_cb_nodes_mono h) _ _ t
        (foldl_nodes_mono (fun _ _ _ h => graph_cb_nodes_mono h) _ _ t h)
    · have hid : t.id ∈ nodeIds (seedDefault o st g) := by
        unfold seedDefault
        rcases hfl with hid | hid
        · refine nodeIds_mono (fun u hu =>
            foldl_nodes_mono (fun _ _ _ h => graph_cb_nodes_mono h) _ _ u hu) _ ?_
          exact flagFold_ensures st.createList g t
            ((mem_selectNodeByFlagList_iff hw).mpr ⟨hE, hid⟩) hp
        · exact flagFold_ensures st.modifyList _ t
            ((mem_selectNodeByFlagList_iff hw).mpr ⟨hE, hid⟩) hp
      exact mem_nodes_of_id hw (seedDefault_GWF hG) hE hid

theorem phiG_le_graphFuel (st : Store) (g : GGraph) : phiG st g ≤ graphFuel st g := by
  unfold phiG graphFuel
  have h1 : (entryIdsF st \ nodeIdsF g).card ≤ (entryIdsF st).card :=
    Finset.card_le_card (Finset.sdiff_subset)
  have h2 : (entryIdsF st).card ≤ st.entries.length := by
    unfold entryIdsF
    calc (st.entries.map TupEntry.id).toFinset.card
        ≤ (st.entries.map TupEntry.id).length := (st.entries.map TupEntry.id).toFinset_card_le
      _ = st.entries.length := List.length_map _ _
  omega

/-! ### The argument loop of graph() -/

/-- The non-option arguments before --prune: the user-supplied graph
    targets. -/
def graphTargets : List String → List String
  | [] => []
  | a :: rest =>
    if a == "--dirs" then graphTargets rest
    else if a == "--ghosts" then graphTargets rest
    else if a == "--env" then graphTargets rest
    else if a == "--combine" then graphTargets rest
    else if a == "--stickies" then graphTargets rest
    else if a == "--prune" then []
    else a :: graphTargets rest

/-- Whether --stickies occurs before --prune. -/
def stickiesRequested : List String → Bool
  | [] => false
  | a :: rest =>
    if a == "--dirs" then stickiesRequested rest
    else if a == "--ghosts" then stickiesRequested rest
    else if a == "--env" then stickiesRequested rest
    else if a == "--combine" then stickiesRequested rest
    else if a == "--stickies" then true
    else if a == "--prune" then false
    else stickiesRequested rest

theorem graphArgLoop_cons (resolve : String → Option TupEntry) (cfg : GraphRunCfg)
    (a : String) (rest : List String) :
    graphArgLoop resolve cfg (a :: rest) =
      (if a == "--dirs" then graphArgLoop resolve { cfg with opts.dirs := true } rest
       else if a == "--ghosts" then
         graphArgLoop resolve { cfg with opts.ghosts := true } rest
       else if a == "--env" then graphArgLoop resolve { cfg with opts.env := true } rest
       else if a == "--combine" then graphArgLoop resolve { cfg with combine := true } rest
       else if a == "--stickies" then
         graphArgLoop resolve { cfg with stickies := true } rest
       else if a == "--prune" then some { cfg with pruneArgs := some (a :: rest) }
       else
         match resolve a with
         | none => none
         | some tent =>
             graphArgLoop resolve
               { cfg with defaultGraph := false, g := seedTarget cfg.g tent } rest) := rfl

theorem graphArgLoop_facts (resolve : String → Option TupEntry) :
    ∀ (args : List String) (cfg0 cfg : GraphRunCfg),
      graphArgLoop resolve cfg0 args = some cfg →
      cfg.g.nodeList = cfg0.g.nodeList ∧
      cfg.g.edges = cfg0.g.edges ∧
      (∀ t, t ∈ cfg.g.nodes →
        t ∈ cfg0.g.nodes ∨ ∃ a ∈ graphTargets args, resolve a = some t) ∧
      (∀ i, i ∈ nodeIds cfg.g ↔ i ∈ nodeIds cfg0.g ∨
        ∃ a ∈ graphTargets args, ∃ t, resolve a = some t ∧ t.id = i) ∧
      cfg.defaultGraph = (cfg0.defaultGraph && (graphTargets args).isEmpty) ∧
      (graphTargets args = [] → cfg.g = cfg0.g) ∧
      cfg.stickies = (cfg0.stickies || stickiesRequested args) := by
  intro args
  induction args with
  | nil =>
      intro cfg0 cfg h
      have heq : cfg0 = cfg := Option.some.inj h
      subst heq
      refine ⟨rfl, rfl, fun t ht => Or.inl ht, ?_, by simp [graphTargets],
        fun _ => rfl, by simp [stickiesRequested]⟩
      intro i
      simp [graphTargets]
  | cons a rest ih =>
      intro cfg0 cfg h
      rw [graphArgLoop_cons] at h
      by_cases h1 : (a == "--dirs") = true
      · rw [if_pos h1] at h
        have hT : graphTargets (a :: rest) = graphTargets rest := by
          simp [graphTargets, h1]
        have hS : stickiesRequested (a :: rest) = stickiesRequested rest := by
          simp [stickiesRequested, h1]
        rw [hT, hS]
        have hf := ih _ _ h
        exact hf
      · rw [if_neg h1] at h
        by_cases h2 : (a == "--ghosts") = true
        · rw [if_pos h2] at h
          have hT : graphTargets (a :: rest) = graphTargets rest := by
            simp [graphTargets, h1, h2]
          have hS : stickiesRequested (a :: rest) = stickiesRequested rest := by
            simp [stickiesRequested, h1, h2]
          rw [hT, hS]
          have hf := ih _ _ h
          exact hf
        · rw [if_neg h2] at h
          by_cases h3 : (a == "--env") = true
          · rw [if_pos h3] at h
            have hT : graphTargets (a :: rest) = graphTargets rest := by
              simp [graphTargets, h1, h2, h3]
            have hS : stickiesRequested (a :: rest) = stickiesRequested rest := by
              simp [stickiesRequested, h1, h2, h3]
            rw [hT, hS]
            have hf := ih _ _ h
            exact hf
          · rw [if_neg h3] at h
            by_cases h4 : (a == "--combine") = true
            · rw [if_pos h4] at h
              have hT : graphTargets (a :: rest) = graphTargets rest := by
                simp [graphTargets, h1, h2, h3, h4]
              have hS : stickiesRequested (a :: rest) = stickiesRequested rest := by
                simp [stickiesRequested, h1, h2, h3, h4]
              rw [hT, hS]
              have hf := ih _ _ h
              exact hf
            · rw [if_neg h4] at h
              by_cases h5 : (a == "--stickies") = true
              · rw [if_pos h5] at h
                have hT : graphTargets (a :: rest) = graphTargets rest := by
                  simp [graphTargets, h1, h2, h3, h4, h5]
                have hS : stickiesRequested (a :: rest) = true := by
                  simp [stickiesRequested, h1, h2, h3, h4, h5]
                rw [hT, hS]
                rcases ih _ _ h with ⟨f1, f2, f3, f4, f5, f6, f7⟩
                refine ⟨f1, f2, f3, f4, f5, f6, ?_⟩
                rw [f7]
                simp
              · rw [if_neg h5] at h
                by_cases h6 : (a == "--prune") = true
                · rw [if_pos h6] at h
                  have heq := Option.some.inj h
                  subst heq
                  have hT : graphTargets (a :: rest) = [] := by
                    simp [graphTargets, h1, h2, h3, h4, h5, h6]
                  have hS : stickiesRequested (a :: rest) = false := by
                    simp [stickiesRequested, h1, h2, h3, h4, h5, h6]
                  rw [hT, hS]
                  refine ⟨rfl, rfl, fun t ht => Or.inl ht, ?_, by simp,
                    fun _ => rfl, by simp⟩
                  intro i
                  simp
                · rw [if_neg h6] at h
                  have hT : graphTargets (a :: rest) = a :: graphTargets rest := by
                    simp [graphTargets, h1, h2, h3, h4, h5, h6]
                  have hS : stickiesRequested (a :: rest) = stickiesRequested rest := by
                    simp [stickiesRequested, h1, h2, h3, h4, h5, h6]
                  rw [hT, hS]
                  cases hr : resolve a with
                  | none =>
                      rw [hr] at h
                      cases h
                  | some tent =>
                      rw [hr] at h
                      rcases ih _ _ h with ⟨f1, f2, f3, f4, f5, f6, f7⟩
                      refine ⟨?_, ?_, ?_, ?_, ?_, ?_, f7⟩
                      · rw [f1]
                        exact insertNode_nodeList cfg0.g tent
                      · rw [f2]
                        exact insertNode_edges cfg0.g tent
                      · intro t ht
                        rcases f3 t ht with h' | ⟨a', ha', hra⟩
                        · rcases mem_nodes_insertNode.mp h' with h'' | ⟨_, h''⟩
                          · exact Or.inl h''
                          · refine Or.inr ⟨a, List.mem_cons_self _ _, ?_⟩
                            rw [h'']
                            exact hr
                        · exact Or.inr ⟨a', List.mem_cons_of_mem _ ha', hra⟩
                      · intro i
                        rw [f4]
                        constructor
                        · rintro (h' | ⟨a', ha', t, hra, hid⟩)
                          · rcases mem_nodeIds_insertNode.mp h' with h'' | h''
                            · exact Or.inl h''
                            · exact Or.inr ⟨a, List.mem_cons_self _ _, tent, hr, h''.symm⟩
                          · exact Or.inr ⟨a', List.mem_cons_of_mem _ ha', t, hra, hid⟩
                        · rintro (h' | ⟨a', ha', t, hra, hid⟩)
                          · exact Or.inl (mem_nodeIds_insertNode.mpr (Or.inl h'))
                          · rcases List.mem_cons.mp ha' with h'' | h''
                            · subst h''
                              have htt : t = tent := by
                                have := hra.symm.trans hr
                                exact Option.some.inj this
                              refine Or.inl (mem_nodeIds_insertNode.mpr (Or.inr ?_))
                              rw [← hid, htt]
                            · exact Or.inr ⟨a', h'', t, hra, hid⟩
                      · rw [f5]
                        simp
                      · intro h'
                        exact absurd h' (by simp)

theorem graphArgLoop_GWF {st : Store} (resolve : String → Option TupEntry)
    (hres : ∀ a t, resolve a = some t → t ∈ st.entries) :
    ∀ (args : List String) (cfg0 cfg : GraphRunCfg),
      graphArgLoop resolve cfg0 args = some cfg → GWF st cfg0.g → GWF st cfg.g := by
  intro args
  induction args with
  | nil =>
      intro cfg0 cfg h hG
      have heq : cfg0 = cfg := Option.some.inj h
      subst heq
      exact hG
  | cons a rest ih =>
      intro cfg0 cfg h hG
      rw [graphArgLoop_cons] at h
      by_cases h1 : (a == "--dirs") = true
      · rw [if_pos h1] at h
        exact ih _ _ h hG
      · rw [if_neg h1] at h
        by_cases h2 : (a == "--ghosts") = true
        · rw [if_pos h2] at h
          exact ih _ _ h hG
        · rw [if_neg h2] at h
          by_cases h3 : (a == "--env") = true
          · rw [if_pos h3] at h
            exact ih _ _ h hG
          · rw [if_neg h3] at h
            by_cases h4 : (a == "--combine") = true
            · rw [if_pos h4] at h
              exact ih _ _ h hG
            · rw [if_neg h4] at h
              by_cases h5 : (a == "--stickies") = true
              · rw [if_pos h5] at h
                exact ih _ _ h hG
              · rw [if_neg h5] at h
                by_cases h6 : (a == "--prune") = true
                · rw [if_pos h6] at h
                  have heq := Option.some.inj h
                  subst heq
                  exact hG
                · rw [if_neg h6] at h
                  cases hr : resolve a with
                  | none =>
                      rw [hr] at h
                      cases h
                  | some tent =>
                      rw [hr] at h
                      exact ih _ _ h (GWF_insertNode (hres a tent hr) hG)

/-! ### The assembled construction -/

theorem GWF_empty (st : Store) : GWF st emptyGraph := by
  constructor
  · intro t ht
    simp [emptyGraph, GGraph.nodes] at ht
  · simp [nodeIds, emptyGraph, GGraph.nodes]

theorem add_graph_stickies_nodes (st : Store) (g : GGraph) :
    (add_graph_stickies st g).nodes = g.nodes := rfl

theorem mem_edges_add_graph_stickies {st : Store} {g : GGraph} {e : Nat × Nat} :
    e ∈ (add_graph_stickies st g).edges ↔
      e ∈ g.edges ∨ ∃ l ∈ st.links, l.sticky = true ∧ l.normal = false ∧
        l.src ∈ nodeIds g ∧ l.dst ∈ nodeIds g ∧ e = (l.src, l.dst) := by
  unfold add_graph_stickies
  constructor
  · intro h
    rcases List.mem_append.mp h with h | h
    · exact Or.inl h
    · rcases List.mem_map.mp h with ⟨l, hl, he⟩
      rw [List.mem_filter] at hl
      have hc := hl.2
      simp only [Bool.and_eq_true, Bool.not_eq_true'] at hc
      obtain ⟨⟨⟨hs, hn⟩, hsrc⟩, hdst⟩ := hc
      refine Or.inr ⟨l, hl.1, hs, hn, ?_, ?_, he.symm⟩
      · simpa [List.contains, List.elem_eq_mem] using hsrc
      · simpa [List.contains, List.elem_eq_mem] using hdst
  · rintro (h | ⟨l, hl, hs, hn, hsrc, hdst, he⟩)
    · exact List.mem_append.mpr (Or.inl h)
    · refine List.mem_append.mpr (Or.inr (List.mem_map.mpr ⟨l, ?_, he.symm⟩))
      refine List.mem_filter.mpr ⟨hl, ?_⟩
      simp [List.contains, List.elem_eq_mem, hs, hn, hsrc, hdst]

theorem graphSeeded_nodeList {cfg : GraphRunCfg} {st : Store}
    (h : cfg.g.nodeList = []) : (graphSeeded cfg st).nodeList = [] := by
  unfold graphSeeded
  split
  · rw [seedDefault_nodeList]
    exact h
  · exact h

theorem graphSeeded_edges {cfg : GraphRunCfg} {st : Store}
    (h : cfg.g.edges = []) : (graphSeeded cfg st).edges = [] := by
  unfold graphSeeded
  split
  · rw [seedDefault_edges]
    exact h
  · exact h

theorem graphSeeded_GWF {cfg : GraphRunCfg} {st : Store} (hG : GWF st cfg.g) :
    GWF st (graphSeeded cfg st) := by
  unfold graphSeeded
  split
  · exact seedDefault_GWF hG
  · exact hG

/-- The drained loop computes exactly the Reach closure of the seeds,
    with exactly the EdgeSpec edges. -/
theorem graphDrained_char {o : GraphOpts} {combine : Bool}
    {resolve : String → Option TupEntry} {st : Store} {args : List String}
    {cfg : GraphRunCfg} (hw : st.WF)
    (hres : ∀ a t, resolve a = some t → t ∈ st.entries)
    (hloop : graphArgLoop resolve (initialCfg o combine) args = some cfg) :
    GWF st (graphDrained cfg st) ∧
    (graphDrained cfg st).plist = [] ∧
    Closed cfg.opts st (graphDrained cfg st) ∧
    (∀ t, t ∈ (graphDrained cfg st).nodes ↔
      Reach cfg.opts st (graphSeeded cfg st).nodes t) ∧
    (∀ e, e ∈ (graphDrained cfg st).edges ↔
      EdgeSpec cfg.opts st (graphSeeded cfg st).nodes e) ∧
    (∀ u ∈ (graphSeeded cfg st).nodes, u ∈ st.entries) := by
  obtain ⟨f1, f2, f3, f4, f5, f6, f7⟩ := graphArgLoop_facts resolve args _ _ hloop
  have hGcfg : GWF st cfg.g :=
    graphArgLoop_GWF resolve hres args _ _ hloop (GWF_empty st)
  have hG0 : GWF st (graphSeeded cfg st) := graphSeeded_GWF hGcfg
  have hnl0 : (graphSeeded cfg st).nodeList = [] := by
    refine graphSeeded_nodeList ?_
    rw [f1]
    rfl
  have hed0 : (graphSeeded cfg st).edges = [] := by
    refine graphSeeded_edges ?_
    rw [f2]
    rfl
  have hC0 : Closed cfg.opts st (graphSeeded cfg st) := by
    intro n hn
    rw [hnl0] at hn
    cases hn
  have hphi0 := phiG_le_graphFuel st (graphSeeded cfg st)
  obtain ⟨hGd, hCd, hpld, hmonoN, hmonoE⟩ :=
    graphExpand_spec cfg.opts st (graphFuel st (graphSeeded cfg st))
      (graphSeeded cfg st) hG0 hC0 hphi0
  have hsound :=
    graphExpand_sound cfg.opts st (Reach cfg.opts st (graphSeeded cfg st).nodes)
      (EdgeSpec cfg.opts st (graphSeeded cfg st).nodes)
      (fun _ _ hn ht hp => Reach.link hn ht hp)
      (fun _ _ hn hty ht => Reach.grp hn hty ht)
      (fun _ _ hn hname ht hp => Reach.child hn hname ht hp)
      (fun n t hn ht hp => ⟨n, hn, rfl, Or.inl ⟨t, ht, hp, rfl⟩⟩)
      (fun n t hn hty ht => ⟨n, hn, rfl, Or.inr ⟨hty, t, ht, rfl⟩⟩)
      (graphFuel st (graphSeeded cfg st)) (graphSeeded cfg st) hG0
      (fun _ hu => Reach.seed hu)
      (by rw [hed0]; intro e he; cases he)
  have hcomp := drained_complete hw hGd hCd hpld (fun u hu => hmonoN u hu)
  exact ⟨hGd, hpld, hCd,
    fun t => ⟨fun h => hsound.1 t h, fun h => hcomp.1 t h⟩,
    fun e => ⟨fun h => hsound.2 e h, fun h => hcomp.2 e h⟩,
    hG0.sub⟩

theorem StoreEquiv.symm {st1 st2 : Store} (h : StoreEquiv st1 st2) :
    StoreEquiv st2 st1 :=
  ⟨fun t => (h.1 t).symm, fun l => (h.2.1 l).symm, fun i => (h.2.2.1 i).symm,
    fun i => (h.2.2.2.1 i).symm, h.2.2.2.2.symm⟩

theorem graphSeeded_equiv {o : GraphOpts} {combine : Bool}
    {resolve : String → Option TupEntry} {args : List String} {cfg : GraphRunCfg}
    {st1 st2 : Store} (hw1 : st1.WF) (hw2 : st2.WF) (heq : StoreEquiv st1 st2)
    (hloop : graphArgLoop resolve (initialCfg o combine) args = some cfg) :
    ∀ u, u ∈ (graphSeeded cfg st1).nodes ↔ u ∈ (graphSeeded cfg st2).nodes := by
  obtain ⟨f1, f2, f3, f4, f5, f6, f7⟩ := graphArgLoop_facts resolve args _ _ hloop
  intro u
  unfold graphSeeded
  cases hd : cfg.defaultGraph with
  | false => simp [hd]
  | true =>
      simp only [hd, if_true]
      have f5' : cfg.defaultGraph = (true && (graphTargets args).isEmpty) := f5
      rw [hd] at f5'
      have htarg : graphTargets args = [] := by
        cases hargs : graphTargets args with
        | nil => rfl
        | cons x xs =>
            rw [hargs] at f5'
            simp at f5'
      have hge : cfg.g = emptyGraph := f6 htarg
      rw [hge]
      rw [seedDefault_char hw1 (GWF_empty st1) u, seedDefault_char hw2 (GWF_empty st2) u]
      have hempty : u ∈ emptyGraph.nodes ↔ False := by
        simp [emptyGraph, GGraph.nodes]
      rw [hempty]
      constructor
      · rintro (h | ⟨hE, hfl, hp⟩)
        · cases h
        · refine Or.inr ⟨(heq.1 u).mp hE, ?_, ?_⟩
          · rcases hfl with h | h
            · exact Or.inl ((heq.2.2.1 _).mp h)
            · exact Or.inr ((heq.2.2.2.1 _).mp h)
          · rw [← passFilter_equiv heq.2.2.2.2]
            exact hp
      · rintro (h | ⟨hE, hfl, hp⟩)
        · cases h
        · refine Or.inr ⟨(heq.1 u).mpr hE, ?_, ?_⟩
          · rcases hfl with h | h
            · exact Or.inl ((heq.2.2.1 _).mpr h)
            · exact Or.inr ((heq.2.2.2.1 _).mpr h)
          · rw [passFilter_equiv heq.2.2.2.2]
            exact hp

/-- C1: graph construction is deterministic: for every seed set (default
    flag seeding or user targets) and every fixed store content at
    transaction start, two runs of the graph command — here, runs over
    any two stores holding the same tables in any order — produce the
    identical vertex and edge set, including iteration order when
    canonically sorted by id. -/
theorem graph_construction_deterministic
    (o : GraphOpts) (combine : Bool) (resolve : String → Option TupEntry)
    (st1 st2 : Store) (args : List String) (cfg1 cfg2 : GraphRunCfg)
    (gOut1 gOut2 : GGraph)
    (hw1 : st1.WF) (hw2 : st2.WF) (heq : StoreEquiv st1 st2)
    (hres : ∀ a t, resolve a = some t → t ∈ st1.entries)
    (h1 : graphConstruct o combine resolve st1 args = some (cfg1, gOut1))
    (h2 : graphConstruct o combine resolve st2 args = some (cfg2, gOut2)) :
    canonNat (nodeIds gOut1) = canonNat (nodeIds gOut2) ∧
    canonPairs gOut1.edges = canonPairs gOut2.edges := by
  unfold graphConstruct at h1 h2
  cases hloop : graphArgLoop resolve (initialCfg o combine) args with
  | none =>
      rw [hloop] at h1
      cases h1
  | some cfg1x =>
      rw [hloop] at h1 h2
      have hp1 := Option.some.inj h1
      have hp2 := Option.some.inj h2
      cases hp1
      cases hp2
      have hres2 : ∀ a t, resolve a = some t → t ∈ st2.entries :=
        fun a t ht => (heq.1 t).mp (hres a t ht)
      obtain ⟨hGd1, hpl1, hCd1, hN1, hE1, hS1⟩ := graphDrained_char hw1 hres hloop
      obtain ⟨hGd2, hpl2, hCd2, hN2, hE2, hS2⟩ := graphDrained_char hw2 hres2 hloop
      have hseeds := graphSeeded_equiv hw1 hw2 heq hloop
      have hseeds' : ∀ u, u ∈ (graphSeeded cfg1 st2).nodes ↔
          u ∈ (graphSeeded cfg1 st1).nodes := fun u => (hseeds u).symm
      have heq' := heq.symm
      have hnodes : ∀ u, u ∈ (graphDrained cfg1 st1).nodes ↔
          u ∈ (graphDrained cfg1 st2).nodes := by
        intro u
        rw [hN1 u, hN2 u]
        exact ⟨Reach_equiv hw1 hw2 heq hseeds u, Reach_equiv hw2 hw1 heq' hseeds' u⟩
      have hids : ∀ i, i ∈ nodeIds (graphDrained cfg1 st1) ↔
          i ∈ nodeIds (graphDrained cfg1 st2) := by
        intro i
        rw [mem_nodeIds, mem_nodeIds]
        constructor
        · rintro ⟨t, ht, hid⟩
          exact ⟨t, (hnodes t).mp ht, hid⟩
        · rintro ⟨t, ht, hid⟩
          exact ⟨t, (hnodes t).mpr ht, hid⟩
      have hedges : ∀ e, e ∈ (graphDrained cfg1 st1).edges ↔
          e ∈ (graphDrained cfg1 st2).edges := by
        intro e
        rw [hE1 e, hE2 e]
        exact ⟨EdgeSpec_equiv hw1 hw2 heq hseeds e, EdgeSpec_equiv hw2 hw1 heq' hseeds' e⟩
      cases hs : cfg1.stickies with
      | false =>
          simp only [hs, Bool.false_eq_true, if_false]
          exact ⟨canonNat_eq_of_mem_iff hids, canonPairs_eq_of_mem_iff hedges⟩
      | true =>
          simp only [hs, if_true]
          constructor
          · refine canonNat_eq_of_mem_iff ?_
            intro i
            show i ∈ nodeIds (add_graph_stickies st1 (graphDrained cfg1 st1)) ↔
              i ∈ nodeIds (add_graph_stickies st2 (graphDrained cfg1 st2))
            unfold nodeIds
            rw [add_graph_stickies_nodes, add_graph_stickies_nodes]
            exact hids i
          · refine canonPairs_eq_of_mem_iff ?_
            intro e
            rw [mem_edges_add_graph_stickies, mem_edges_add_graph_stickies]
            constructor
            · rintro (h | ⟨l, hl, hks, hkn, hsrc, hdst, he⟩)
              · exact Or.inl ((hedges e).mp h)
              · exact Or.inr ⟨l, (heq.2.1 l).mp hl, hks, hkn, (hids l.src).mp hsrc,
                  (hids l.dst).mp hdst, he⟩
            · rintro (h | ⟨l, hl, hks, hkn, hsrc, hdst, he⟩)
              · exact Or.inl ((hedges e).mpr h)
              · exact Or.inr ⟨l, (heq.2.1 l).mpr hl, hks, hkn, (hids l.src).mpr hsrc,
                  (hids l.dst).mpr hdst, he⟩

/-! ### Concrete stores exercising the graph command -/

/-- The graph.* display options all off, as with a default tup config. -/
def defaultGraphOpts : GraphOpts := ⟨false, false, false⟩

/-- A target resolver over an empty working tree: no argument names a
    node. -/
def noResolve : String → Option TupEntry := fun _ => none

/-- A store whose create list holds a ghost node. -/
def c3Store : Store := ⟨[⟨3, 1, "ghostvar", .ghost⟩], [], [3], [], 99⟩

/-- A store with a directory literally named tup.config that is not the
    top-level config node (its parent 4 is not the root), holding one
    child file. -/
def c4Store : Store :=
  ⟨[⟨5, 4, "tup.config", .dir⟩, ⟨6, 5, "x", .file⟩], [], [5], [], 99⟩

/-- A store with an ordinarily named directory holding one child file. -/
def c4wStore : Store := ⟨[⟨5, 1, "d", .dir⟩, ⟨6, 5, "x", .file⟩], [], [5], [], 99⟩

/-- A store with a group and one producing command, recorded by two
    group-link rows so the distinct iterator must deduplicate. -/
def c5Store : Store :=
  ⟨[⟨7, 1, "<grp>", .group⟩, ⟨8, 1, "cc", .cmd⟩],
    [⟨8, 7, false, false, true⟩, ⟨8, 7, false, true, true⟩], [7], [], 99⟩

/-- A store with a normal link from a file to a command and a sticky-only
    link back. -/
def c6Store : Store :=
  ⟨[⟨2, 1, "a.c", .file⟩, ⟨3, 1, "cc", .cmd⟩],
    [⟨2, 3, true, false, false⟩, ⟨3, 2, false, true, false⟩], [2], [], 99⟩

/-- The same table contents as c6Store with both tables reversed. -/
def c1StoreB : Store :=
  ⟨[⟨3, 1, "cc", .cmd⟩, ⟨2, 1, "a.c", .file⟩],
    [⟨3, 2, false, true, false⟩, ⟨2, 3, true, false, false⟩], [2], [], 99⟩

theorem noResolve_sub (st : Store) :
    ∀ a t, noResolve a = some t → t ∈ st.entries := by
  intro a t ht
  exact Option.noConfusion ht

theorem c1_store_equiv : StoreEquiv c6Store c1StoreB := by
  refine ⟨?_, ?_, ?_, ?_, rfl⟩
  · intro t
    simp only [c6Store, c1StoreB, List.mem_cons, List.not_mem_nil, or_false]
    tauto
  · intro l
    simp only [c6Store, c1StoreB, List.mem_cons, List.not_mem_nil, or_false]
    tauto
  · intro i
    exact Iff.rfl
  · intro i
    exact Iff.rfl

/-! ### The shape of a successful graph command run -/

theorem graphConstruct_shape {o : GraphOpts} {combine : Bool}
    {resolve : String → Option TupEntry} {st : Store} {args : List String}
    {cfg : GraphRunCfg} {gOut : GGraph}
    (h : graphConstruct o combine resolve st args = some (cfg, gOut)) :
    graphArgLoop resolve (initialCfg o combine) args = some cfg ∧
    gOut = (if cfg.stickies then add_graph_stickies st (graphDrained cfg st)
            else graphDrained cfg st) := by
  unfold graphConstruct at h
  cases hloop : graphArgLoop resolve (initialCfg o combine) args with
  | none =>
      rw [hloop] at h
      cases h
  | some c =>
      rw [hloop] at h
      have hp := Option.some.inj h
      have h1 : c = cfg := congrArg Prod.fst hp
      have h2 : (if c.stickies then add_graph_stickies st (graphDrained c st)
                 else graphDrained c st) = gOut := congrArg Prod.snd hp
      subst h1
      exact ⟨rfl, h2.symm⟩

theorem graphConstruct_nodes_edges {o : GraphOpts} {combine : Bool}
    {resolve : String → Option TupEntry} {st : Store} {args : List String}
    {cfg : GraphRunCfg} {gOut : GGraph}
    (h : graphConstruct o combine resolve st args = some (cfg, gOut)) :
    gOut.nodes = (graphDrained cfg st).nodes ∧
    (∀ e ∈ (graphDrained cfg st).edges, e ∈ gOut.edges) := by
  obtain ⟨-, hsh⟩ := graphConstruct_shape h
  cases hs : cfg.stickies with
  | false =>
      rw [hs] at hsh
      simp only [Bool.false_eq_true, if_false] at hsh
      rw [hsh]
      exact ⟨rfl, fun e he => he⟩
  | true =>
      rw [hs] at hsh
      simp only [if_true] at hsh
      rw [hsh]
      exact ⟨add_graph_stickies_nodes st _,
        fun e he => mem_edges_add_graph_stickies.mpr (Or.inl he)⟩

theorem graphConstruct_closed {o : GraphOpts} {combine : Bool}
    {resolve : String → Option TupEntry} {st : Store} {args : List String}
    {cfg : GraphRunCfg} {gOut : GGraph} (hw : st.WF)
    (hres : ∀ a t, resolve a = some t → t ∈ st.entries)
    (h : graphConstruct o combine resolve st args = some (cfg, gOut)) :
    ∀ n ∈ gOut.nodes, ClosedAt cfg.opts st (graphDrained cfg st) n := by
  obtain ⟨hloop, -⟩ := graphConstruct_shape h
  obtain ⟨-, hpld, hCd, -, -, -⟩ := graphDrained_char hw hres hloop
  obtain ⟨hnodes, -⟩ := graphConstruct_nodes_edges h
  intro n hn
  rw [hnodes] at hn
  have hnl : n ∈ (graphDrained cfg st).nodeList := by
    have hsplit : (graphDrained cfg st).nodes =
        (graphDrained cfg st).nodeList ++ (graphDrained cfg st).plist := rfl
    rw [hsplit, hpld, List.append_nil] at hn
    exact hn
  exact hCd n hnl

/-! ### Claim C3: the seed set -/

/-- C3 as stated fails: the default seeding is not exactly the create
    set union the modify set.  Node 3 is a ghost sitting in the create
    list of c3Store, yet a default-mode run of the graph command seeds
    nothing: graph_cb's display filter drops the ghost, so the
    constructed graph is empty and 3 is not even a vertex. -/
theorem graph_seed_ghost_counterexample :
    c3Store.WF ∧ (3 : Nat) ∈ c3Store.createList ∧
    (⟨3, 1, "ghostvar", TupNodeType.ghost⟩ : TupEntry) ∈ c3Store.entries ∧
    graphConstruct defaultGraphOpts false noResolve c3Store [] =
      some (initialCfg defaultGraphOpts false, emptyGraph) ∧
    (graphSeeded (initialCfg defaultGraphOpts false) c3Store).nodes = [] ∧
    (3 : Nat) ∉ nodeIds emptyGraph := by
  decide

/-- C3: with no target arguments the seed set of graph construction is
    exactly the node-table entries of the create or modify flag set that
    pass graph_cb's display filter; with target arguments the seeds are
    exactly the resolved user-supplied targets. -/
theorem graph_seed_characterization
    (o : GraphOpts) (combine : Bool) (resolve : String → Option TupEntry)
    (st : Store) (args : List String) (cfg : GraphRunCfg) (gOut : GGraph)
    (hw : st.WF)
    (h : graphConstruct o combine resolve st args = some (cfg, gOut)) :
    (graphTargets args = [] →
      ∀ t, t ∈ (graphSeeded cfg st).nodes ↔
        t ∈ st.entries ∧ (t.id ∈ st.createList ∨ t.id ∈ st.modifyList) ∧
          passFilter cfg.opts st false t = true) ∧
    (graphTargets args ≠ [] →
      ∀ i, i ∈ nodeIds (graphSeeded cfg st) ↔
        ∃ a ∈ graphTargets args, ∃ t, resolve a = some t ∧ t.id = i) := by
  obtain ⟨hloop, -⟩ := graphConstruct_shape h
  obtain ⟨f1, f2, f3, f4, f5, f6, f7⟩ := graphArgLoop_facts resolve args _ _ hloop
  constructor
  · intro htarg t
    have f5' : cfg.defaultGraph = (true && (graphTargets args).isEmpty) := f5
    rw [htarg] at f5'
    have hd : cfg.defaultGraph = true := by
      rw [f5']
      rfl
    have hge : cfg.g = emptyGraph := f6 htarg
    unfold graphSeeded
    simp only [hd, if_true]
    rw [hge]
    rw [seedDefault_char hw (GWF_empty st) t]
    have hempty : t ∈ emptyGraph.nodes ↔ False := by
      simp [emptyGraph, GGraph.nodes]
    rw [hempty]
    simp only [false_or]
  · intro htarg i
    have hd : cfg.defaultGraph = false := by
      have f5' : cfg.defaultGraph = (true && (graphTargets args).isEmpty) := f5
      cases hargs : graphTargets args with
      | nil => exact absurd hargs htarg
      | cons x xs =>
          rw [hargs] at f5'
          rw [f5']
          rfl
    unfold graphSeeded
    simp only [hd, Bool.false_eq_true, if_false]
    rw [f4 i]
    have hinit : i ∈ nodeIds (initialCfg o combine).g ↔ False := by
      simp [initialCfg, emptyGraph, nodeIds, GGraph.nodes]
    rw [hinit]
    simp only [false_or]

theorem graph_seed_characterization_witness :
    (⟨2, 1, "a.c", TupNodeType.file⟩ : TupEntry) ∈
      (graphSeeded (initialCfg defaultGraphOpts false) c6Store).nodes := by
  have h := graph_seed_characterization defaultGraphOpts false noResolve c6Store []
    (initialCfg defaultGraphOpts false)
    ⟨[⟨3, 1, "cc", TupNodeType.cmd⟩, ⟨2, 1, "a.c", TupNodeType.file⟩], [], [(2, 3)]⟩
    (by decide) (by decide)
  exact (h.1 rfl _).mpr (by decide)

/-! ### Claim C4: the directory fan-out -/

/-- The claimed fan-out rule: in every constructed graph, every vertex
    that is neither the top-level config node (named tup.config and
    sitting in the root directory) nor a file has each of its directory
    children passing the display filter included in the vertex set. -/
def ClaimC4 : Prop :=
  ∀ (o : GraphOpts) (combine : Bool) (resolve : String → Option TupEntry)
    (st : Store) (args : List String) (cfg : GraphRunCfg) (gOut : GGraph),
    st.WF → (∀ a t, resolve a = some t → t ∈ st.entries) →
    graphConstruct o combine resolve st args = some (cfg, gOut) →
    ∀ n, n ∈ gOut.nodes → ¬(n.name = TUP_CONFIG ∧ n.dt = DOT_DT) →
      n.type ≠ TupNodeType.file →
      ∀ c, c ∈ selectNodeDir st n.id → passFilter cfg.opts st false c = true →
        c.id ∈ nodeIds gOut

/-- C4 as stated fails: the fan-out guard compares only the node's name
    against tup.config, not its directory.  In c4Store, directory 5 is
    literally named tup.config but lives under directory 4, not the
    root, so it is not the top-level config node and is no file — yet
    its child 6 is left out of the constructed graph. -/
theorem graph_fanout_counterexample : ¬ClaimC4 := by
  intro h
  have hc := h defaultGraphOpts false noResolve c4Store []
    (initialCfg defaultGraphOpts false)
    ⟨[⟨5, 4, "tup.config", TupNodeType.dir⟩], [], []⟩
    (by decide) (noResolve_sub c4Store)
    (by decide)
    ⟨5, 4, "tup.config", TupNodeType.dir⟩ (by decide) (by decide) (by decide)
    ⟨6, 5, "x", TupNodeType.file⟩ (by decide) (by decide)
  exact absurd hc (by decide)

/-- C4: every vertex of the constructed graph whose name is not
    tup.config — the guard checks the name alone, regardless of the
    node's directory or type — has each of its directory children
    passing the display filter included in the vertex set. -/
theorem graph_fanout_guard
    (o : GraphOpts) (combine : Bool) (resolve : String → Option TupEntry)
    (st : Store) (args : List String) (cfg : GraphRunCfg) (gOut : GGraph)
    (hw : st.WF) (hres : ∀ a t, resolve a = some t → t ∈ st.entries)
    (h : graphConstruct o combine resolve st args = some (cfg, gOut)) :
    ∀ n, n ∈ gOut.nodes → n.name ≠ TUP_CONFIG →
      ∀ c, c ∈ selectNodeDir st n.id → passFilter cfg.opts st false c = true →
        c.id ∈ nodeIds gOut := by
  intro n hn hname c hc hp
  have hclosed := graphConstruct_closed hw hres h n hn
  have hid := hclosed.2.2 hname c hc hp
  obtain ⟨hnodes, -⟩ := graphConstruct_nodes_edges h
  unfold nodeIds
  rw [hnodes]
  exact hid

theorem graph_fanout_guard_witness :
    (6 : Nat) ∈ nodeIds (⟨[⟨6, 5, "x", TupNodeType.file⟩,
      ⟨5, 1, "d", TupNodeType.dir⟩], [], []⟩ : GGraph) := by
  exact graph_fanout_guard defaultGraphOpts false noResolve c4wStore []
    (initialCfg defaultGraphOpts false)
    ⟨[⟨6, 5, "x", TupNodeType.file⟩, ⟨5, 1, "d", TupNodeType.dir⟩], [], []⟩
    (by decide) (noResolve_sub c4wStore) (by decide)
    ⟨5, 1, "d", TupNodeType.dir⟩ (by decide) (by decide)
    ⟨6, 5, "x", TupNodeType.file⟩ (by decide) (by decide)

/-! ### Claim C5: group fan-out to distinct producers -/

/-- C5: during graph expansion, every popped node of type group — every
    group vertex of the constructed graph, as the worklist is fully
    drained — gets an edge to each command producing into the group,
    obtained through the deduplicated distinct-group-link enumeration;
    each such producer is itself a vertex. -/
theorem graph_group_producer_edges
    (o : GraphOpts) (combine : Bool) (resolve : String → Option TupEntry)
    (st : Store) (args : List String) (cfg : GraphRunCfg) (gOut : GGraph)
    (hw : st.WF) (hres : ∀ a t, resolve a = some t → t ∈ st.entries)
    (h : graphConstruct o combine resolve st args = some (cfg, gOut)) :
    ∀ n, n ∈ gOut.nodes → n.type = TupNodeType.group →
      ∀ c, c ∈ selectDistinctGroupProducers st n.id →
        c.id ∈ nodeIds gOut ∧ (n.id, c.id) ∈ gOut.edges := by
  intro n hn hty c hc
  have hclosed := graphConstruct_closed hw hres h n hn
  obtain ⟨hid, hedge⟩ := hclosed.2.1 hty c hc
  obtain ⟨hnodes, hedges⟩ := graphConstruct_nodes_edges h
  constructor
  · unfold nodeIds
    rw [hnodes]
    exact hid
  · exact hedges _ hedge

theorem graph_group_producer_edges_witness :
    (8 : Nat) ∈ nodeIds (⟨[⟨8, 1, "cc", TupNodeType.cmd⟩,
        ⟨7, 1, "<grp>", TupNodeType.group⟩], [], [(7, 8)]⟩ : GGraph) ∧
      ((7 : Nat), (8 : Nat)) ∈ (⟨[⟨8, 1, "cc", TupNodeType.cmd⟩,
        ⟨7, 1, "<grp>", TupNodeType.group⟩], [], [(7, 8)]⟩ : GGraph).edges := by
  exact graph_group_producer_edges defaultGraphOpts false noResolve c5Store []
    (initialCfg defaultGraphOpts false)
    ⟨[⟨8, 1, "cc", TupNodeType.cmd⟩, ⟨7, 1, "<grp>", TupNodeType.group⟩],
      [], [(7, 8)]⟩
    (by decide) (noResolve_sub c5Store) (by decide)
    ⟨7, 1, "<grp>", TupNodeType.group⟩ (by decide) (by decide)
    ⟨8, 1, "cc", TupNodeType.cmd⟩ (by decide)

/-! ### Claim C6: sticky-only edges and the --stickies option -/

/-- C6: the stickies flag is set exactly when --stickies is given
    before --prune; the expansion worklist is fully drained (empty
    plist) before any sticky edge can be added; without --stickies the
    result is the drained graph itself and every one of its edges comes
    from a normal link or a group fan-out (EdgeSpec), never from a
    sticky-only link; with --stickies the result is exactly the sticky
    pass applied to the drained graph. -/
theorem graph_stickies_timing
    (o : GraphOpts) (combine : Bool) (resolve : String → Option TupEntry)
    (st : Store) (args : List String) (cfg : GraphRunCfg) (gOut : GGraph)
    (hw : st.WF) (hres : ∀ a t, resolve a = some t → t ∈ st.entries)
    (h : graphConstruct o combine resolve st args = some (cfg, gOut)) :
    cfg.stickies = stickiesRequested args ∧
    (graphDrained cfg st).plist = [] ∧
    (stickiesRequested args = false → gOut = graphDrained cfg st) ∧
    (stickiesRequested args = false →
      ∀ e, e ∈ gOut.edges → EdgeSpec cfg.opts st (graphSeeded cfg st).nodes e) ∧
    (stickiesRequested args = true →
      gOut = add_graph_stickies st (graphDrained cfg st)) := by
  obtain ⟨hloop, hsh⟩ := graphConstruct_shape h
  obtain ⟨-, hpld, -, -, hE, -⟩ := graphDrained_char hw hres hloop
  obtain ⟨-, -, -, -, -, -, f7⟩ := graphArgLoop_facts resolve args _ _ hloop
  have hsr : cfg.stickies = stickiesRequested args := by
    have f7' : cfg.stickies = (false || stickiesRequested args) := f7
    rw [f7']
    exact Bool.false_or _
  have hout : stickiesRequested args = false → gOut = graphDrained cfg st := by
    intro hfalse
    rw [hsh, hsr, hfalse]
    simp only [Bool.false_eq_true, if_false]
  refine ⟨hsr, hpld, hout, ?_, ?_⟩
  · intro hfalse e he
    rw [hout hfalse] at he
    exact (hE e).mp he
  · intro htrue
    rw [hsh, hsr, htrue]
    simp only [if_true]

theorem graph_stickies_timing_witness :
    (⟨[⟨3, 1, "cc", TupNodeType.cmd⟩, ⟨2, 1, "a.c", TupNodeType.file⟩], [],
        [(2, 3), (3, 2)]⟩ : GGraph) =
      add_graph_stickies c6Store
        (graphDrained ⟨⟨false, false, false⟩, false, true, true, none, emptyGraph⟩
          c6Store) := by
  exact (graph_stickies_timing defaultGraphOpts false noResolve c6Store
    ["--stickies"]
    ⟨⟨false, false, false⟩, false, true, true, none, emptyGraph⟩
    ⟨[⟨3, 1, "cc", TupNodeType.cmd⟩, ⟨2, 1, "a.c", TupNodeType.file⟩], [],
      [(2, 3), (3, 2)]⟩
    (by decide) (noResolve_sub c6Store) (by decide)).2.2.2.2 (by decide)

theorem graph_construction_deterministic_witness :
    canonNat (nodeIds (⟨[⟨3, 1, "cc", TupNodeType.cmd⟩,
        ⟨2, 1, "a.c", TupNodeType.file⟩], [], [(2, 3)]⟩ : GGraph)) =
      canonNat (nodeIds (⟨[⟨3, 1, "cc", TupNodeType.cmd⟩,
        ⟨2, 1, "a.c", TupNodeType.file⟩], [], [(2, 3)]⟩ : GGraph)) ∧
    canonPairs (GGraph.edges ⟨[⟨3, 1, "cc", TupNodeType.cmd⟩,
        ⟨2, 1, "a.c", TupNodeType.file⟩], [], [(2, 3)]⟩) =
      canonPairs (GGraph.edges ⟨[⟨3, 1, "cc", TupNodeType.cmd⟩,
        ⟨2, 1, "a.c", TupNodeType.file⟩], [], [(2, 3)]⟩) := by
  exact graph_construction_deterministic defaultGraphOpts false noResolve
    c6Store c1StoreB []
    (initialCfg defaultGraphOpts false) (initialCfg defaultGraphOpts false)
    ⟨[⟨3, 1, "cc", TupNodeType.cmd⟩, ⟨2, 1, "a.c", TupNodeType.file⟩], [], [(2, 3)]⟩
    ⟨[⟨3, 1, "cc", TupNodeType.cmd⟩, ⟨2, 1, "a.c", TupNodeType.file⟩], [], [(2, 3)]⟩
    (by decide) (by decide) c1_store_equiv (noResolve_sub c6Store)
    (by decide) (by decide)

end Tup
